import Mathlib

/-!
# Pathfinder-Visualizer: the grid search of `src/algorithms/dijkstra.js`

The JavaScript code works on node objects that are shared by reference between
the grid (an array of rows), the list of unvisited nodes, the visited order and
the `previousNode` links.  The embedding keeps that sharing explicit:

* a `Ref` names a node object,
* a `Heap` gives the current fields of every node object,
* a `Grid` is the array of rows, each row an array of references.

`dijkstra` mutates node objects only, never the grid arrays, so the functions
below pass the heap along and leave the grid fixed.
-/

namespace Pathfinder

/-- A reference to a node object. -/
abbrev Ref := Nat

/-- The fields of a node object as built by `createInitialGrid`.
`distance = none` stands for `Infinity`, `previousNode = none` for `null`. -/
structure Node where
  row : Nat
  col : Nat
  isStart : Bool
  isFinish : Bool
  isWall : Bool
  distance : Option Nat
  isVisited : Bool
  isPath : Bool
  previousNode : Option Ref
deriving DecidableEq, Repr

/-- The current fields of every node object. -/
abbrev Heap := Ref → Node

/-- The grid: an array of rows of node references. -/
abbrev Grid := List (List Ref)

/-- How a call of `dijkstra` ends. -/
inductive Outcome where
  /-- One of the two `return visitedNodesInOrder` statements was taken. -/
  | returned (visitedNodesInOrder : List Ref)
  /-- The `while` loop ended and the function fell off its end. -/
  | undefined
  /-- A property of `undefined` was read (an index outside the grid arrays). -/
  | typeError
deriving DecidableEq, Repr

/-- `getAllNodes(grid)`: both `for … of` loops push onto `nodes`. -/
def getAllNodes (grid : Grid) : List Ref :=
  grid.foldl (fun nodes row => row.foldl (fun nodes node => nodes ++ [node]) nodes) []

/-- The value of `nodeA.distance - nodeB.distance` as `Array.prototype.sort`
uses it: negative, zero or positive; `Infinity - Infinity` is `NaN`, which the
sort treats as `+0`. -/
def compareDistance (a b : Option Nat) : Int :=
  match a, b with
  | some x, some y => (x : Int) - (y : Int)
  | some _, none => -1
  | none, some _ => 1
  | none, none => 0

/-- `sortNodesByDistance(unvisitedNodes)`: `Array.prototype.sort` is a stable
sort; `nodeA` stays in front of `nodeB` unless the comparator is positive. -/
def sortNodesByDistance (h : Heap) (unvisitedNodes : List Ref) : List Ref :=
  unvisitedNodes.insertionSort
    (fun nodeA nodeB => compareDistance (h nodeA).distance (h nodeB).distance ≤ 0)

/-- The element `grid[row][col]`; `none` when either index is outside its array. -/
def gridAt (grid : Grid) (row col : Nat) : Option Ref :=
  (grid[row]?).bind (fun r => r[col]?)

/-- The statement `if (c) neighbors.push(cell)`: the cells it pushes, or `none`
when the cell read is `undefined`. -/
def pushIf (c : Prop) [Decidable c] (cell : Option Ref) : Option (List Ref) :=
  if c then cell.map (fun n => [n]) else some []

/-- `getUnvisitedNeighbors(node, grid)`: up, down, left, right, then the filter.
`none` is the `TypeError` of reading through an index outside the arrays. -/
def getUnvisitedNeighbors (h : Heap) (node : Ref) (grid : Grid) : Option (List Ref) := do
  let col := (h node).col
  let row := (h node).row
  let up ← pushIf (row > 0) (gridAt grid (row - 1) col)
  let down ← pushIf (row < grid.length - 1) (gridAt grid (row + 1) col)
  let left ← pushIf (col > 0) (gridAt grid row (col - 1))
  let row0 ← grid[0]?
  let right ← pushIf (col < row0.length - 1) (gridAt grid row (col + 1))
  some ((up ++ down ++ left ++ right).filter
    (fun neighbor => !(h neighbor).isVisited && !(h neighbor).isWall))

/-- The assignment `target.distance = d`. -/
def setDistance (h : Heap) (target : Ref) (d : Option Nat) : Heap :=
  fun r => if r = target then { h r with distance := d } else h r

/-- The assignment `target.previousNode = p`. -/
def setPreviousNode (h : Heap) (target : Ref) (p : Option Ref) : Heap :=
  fun r => if r = target then { h r with previousNode := p } else h r

/-- The assignment `target.isVisited = b`. -/
def setIsVisited (h : Heap) (target : Ref) (b : Bool) : Heap :=
  fun r => if r = target then { h r with isVisited := b } else h r

/-- `updateUnvisitedNeighbors(node, grid)`: for every unvisited neighbour,
`neighbor.distance = node.distance + 1; neighbor.previousNode = node`. -/
def updateUnvisitedNeighbors (h : Heap) (node : Ref) (grid : Grid) : Option Heap :=
  (getUnvisitedNeighbors h node grid).map (fun unvisitedNeighbors =>
    unvisitedNeighbors.foldl
      (fun h neighbor =>
        setPreviousNode (setDistance h neighbor ((h node).distance.map (· + 1)))
          neighbor (some node))
      h)

/-- The `while (unvisitedNodes.length)` loop of `dijkstra`.  Every iteration
shifts one node off `unvisitedNodes`, so the loop makes at most
`unvisitedNodes.length` iterations; the first argument counts the iterations
left and `dijkstra` starts it at that length. -/
def dijkstraLoop (grid : Grid) (finishNode : Ref) :
    Nat → Heap → List Ref → List Ref → Heap × Outcome
  | 0, h, _, _ => (h, Outcome.undefined)
  | n + 1, h, unvisitedNodes, visitedNodesInOrder =>
    match sortNodesByDistance h unvisitedNodes with
    | [] => (h, Outcome.undefined)
    | closestNode :: rest =>
      if (h closestNode).distance = none then (h, Outcome.returned visitedNodesInOrder)
      else
        let h1 := setIsVisited h closestNode true
        let visited1 := visitedNodesInOrder ++ [closestNode]
        if closestNode = finishNode then (h1, Outcome.returned visited1)
        else
          match updateUnvisitedNeighbors h1 closestNode grid with
          | none => (h1, Outcome.typeError)
          | some h2 => dijkstraLoop grid finishNode n h2 rest visited1

/-- `dijkstra(grid, startNode, finishNode)`: the heap after the call and how the
call ended. -/
def dijkstra (h : Heap) (grid : Grid) (startNode finishNode : Ref) : Heap × Outcome :=
  let unvisitedNodes := getAllNodes grid
  let h0 := setDistance h startNode (some 0)
  dijkstraLoop grid finishNode unvisitedNodes.length h0 unvisitedNodes []

/-- The `while (currentNode !== null)` loop of `getNodesInShortestPathOrder`;
`unshift` puts the current node in front.  The loop follows `previousNode`
links for as long as there are any, so the model counts iterations: `none`
means the count ran out before `null` was reached. -/
def pathLoop (h : Heap) : Nat → Option Ref → List Ref → Option (List Ref)
  | _, none, nodesInShortestPathOrder => some nodesInShortestPathOrder
  | 0, some _, _ => none
  | n + 1, some currentNode, nodesInShortestPathOrder =>
    pathLoop h n (h currentNode).previousNode (currentNode :: nodesInShortestPathOrder)

/-- `getNodesInShortestPathOrder(finishNode)` run for at most `fuel` iterations. -/
def getNodesInShortestPathOrder (fuel : Nat) (h : Heap) (finishNode : Ref) :
    Option (List Ref) :=
  pathLoop h fuel (some finishNode) []

/-- A heap whose node `r` sits at row `r / width`, column `r % width`, is a wall
when listed in `walls`, and is otherwise as `createInitialGrid` builds it. -/
def freshHeap (width : Nat) (walls : List Ref) : Heap := fun r =>
  { row := r / width, col := r % width, isStart := false, isFinish := false,
    isWall := decide (r ∈ walls), distance := none, isVisited := false, isPath := false,
    previousNode := none }

/-- The grid of the given size whose rows hold the references `0, 1, 2, …` in
row-major order. -/
def freshGrid (height width : Nat) : Grid :=
  (List.range height).map (fun i => (List.range width).map (fun j => i * width + j))

/-- Every row is as long as row 0, the width `getUnvisitedNeighbors` reads. -/
def Rectangular (grid : Grid) : Prop :=
  ∀ row ∈ grid, row.length = (grid.headD []).length

/-- Each cell is stored at its own coordinates: `grid[i][j].row = i` and
`grid[i][j].col = j`. -/
def OwnPosition (h : Heap) (grid : Grid) : Prop :=
  ∀ i (hi : i < grid.length) j (hj : j < (grid[i]).length),
    (h ((grid[i])[j])).row = i ∧ (h ((grid[i])[j])).col = j

/-- A well-formed grid: rectangular, each cell stored at its own row and column. -/
def WellFormed (h : Heap) (grid : Grid) : Prop :=
  Rectangular grid ∧ OwnPosition h grid

/-- A reset grid: every cell has distance `Infinity`, is unvisited and has no
predecessor. -/
def IsReset (h : Heap) (grid : Grid) : Prop :=
  ∀ row ∈ grid, ∀ r ∈ row,
    (h r).distance = none ∧ (h r).isVisited = false ∧ (h r).previousNode = none

/-- The node is one of the cells of the grid. -/
def InGrid (grid : Grid) (r : Ref) : Prop :=
  ∃ row ∈ grid, r ∈ row

/-- One orthogonal step apart: the coordinates differ by 1 in exactly one of
row and column and agree in the other. -/
def Adjacent (h : Heap) (a b : Ref) : Prop :=
  ((h a).row = (h b).row ∧ ((h a).col + 1 = (h b).col ∨ (h b).col + 1 = (h a).col)) ∨
  ((h a).col = (h b).col ∧ ((h a).row + 1 = (h b).row ∨ (h b).row + 1 = (h a).row))

/-- A sequence of orthogonally adjacent non-blocked cells of the grid that
leads from `a` to `b`. -/
def IsRoute (h : Heap) (grid : Grid) (a b : Ref) (p : List Ref) : Prop :=
  p.head? = some a ∧ p.getLast? = some b ∧
  (∀ c ∈ p, InGrid grid c ∧ (h c).isWall = false) ∧
  p.Chain' (Adjacent h)

/-- Some sequence of orthogonally adjacent non-blocked cells leads from `a` to `b`. -/
def Reachable (h : Heap) (grid : Grid) (a b : Ref) : Prop :=
  ∃ p, IsRoute h grid a b p

instance (grid : Grid) : Decidable (Rectangular grid) := by
  unfold Rectangular; infer_instance

instance (h : Heap) (grid : Grid) : Decidable (OwnPosition h grid) := by
  unfold OwnPosition; infer_instance

instance (h : Heap) (grid : Grid) : Decidable (WellFormed h grid) := by
  unfold WellFormed; infer_instance

instance (h : Heap) (grid : Grid) : Decidable (IsReset h grid) := by
  unfold IsReset; infer_instance

instance (grid : Grid) (r : Ref) : Decidable (InGrid grid r) := by
  unfold InGrid; infer_instance

instance (h : Heap) (a b : Ref) : Decidable (Adjacent h a b) := by
  unfold Adjacent; infer_instance

/-- Two cells finalized one after the other: both distances are finite and the
later one is the same or one larger. -/
def DistStep (h : Heap) (a b : Ref) : Prop :=
  ∃ da db, (h a).distance = some da ∧ (h b).distance = some db ∧ da ≤ db ∧ db ≤ da + 1

/-- The latest cell of `expanded` that is orthogonally adjacent to the
non-blocked cell `x`, looking only at the cells in front of `x` when `x` is
itself in the list. -/
def lastReachedFrom (h : Heap) (expanded : List Ref) (x : Ref) : Option Ref :=
  ((expanded.takeWhile (fun u => decide (u ≠ x))).filter
    (fun u => decide (Adjacent h u x) && !(h x).isWall)).getLast?

/-- The state of `dijkstra` between two statements of its loop: `h` is the heap,
`U` is `unvisitedNodes`, `V` is `visitedNodesInOrder` and `E` lists the visited
cells whose neighbours have been updated.  `h₀` is the heap the search was
started on. -/
structure SearchInv (h₀ : Heap) (grid : Grid) (s f : Ref) (h : Heap) (U V E : List Ref) :
    Prop where
  static : ∀ r, (h r).row = (h₀ r).row ∧ (h r).col = (h₀ r).col ∧ (h r).isWall = (h₀ r).isWall
  perm : (V ++ U).Perm (getAllNodes grid)
  visited : ∀ r, InGrid grid r → ((h r).isVisited = true ↔ r ∈ V)
  tail : V = E ∨ ∃ c, V = E ++ [c] ∧ c ∉ E
  finish : f ∉ E
  start : (h s).distance = some 0 ∧ (h s).previousNode = none
  head : ∀ v, V.head? = some v → v = s
  fresh : V = [] → ∀ r, InGrid grid r → r ≠ s → (h r).distance = none
  level : ∃ k, (∀ v, V.getLast? = some v → (h v).distance = some k) ∧
    (∀ v ∈ V, ∃ d, (h v).distance = some d ∧ d ≤ k) ∧
    (∀ r, InGrid grid r → r ∉ E → ∀ d, (h r).distance = some d → k ≤ d ∧ d ≤ k + 1)
  mono : V.Chain' (DistStep h)
  parity : ∀ r, InGrid grid r → ∀ d, (h r).distance = some d →
    (d + (h₀ r).row + (h₀ r).col) % 2 = ((h₀ s).row + (h₀ s).col) % 2
  pred : ∀ r, InGrid grid r → ∀ p, (h r).previousNode = some p →
    p ∈ E ∧ Adjacent h₀ p r ∧ (h₀ r).isWall = false ∧
      ∃ d, (h p).distance = some d ∧ (h r).distance = some (d + 1)
  reached : ∀ r, InGrid grid r → r ≠ s → (h r).distance ≠ none → (h r).previousNode ≠ none
  relax : ∀ u ∈ E, ∀ x, InGrid grid x → Adjacent h₀ u x → (h₀ x).isWall = false →
    ∃ d d', (h u).distance = some d ∧ (h x).distance = some d' ∧ d' ≤ d + 1
  last : ∀ x, InGrid grid x → (h x).previousNode = lastReachedFrom h₀ E x

/-- The Manhattan distance `|a.row - b.row| + |a.col - b.col|` of two cells. -/
def manhattan (h : Heap) (a b : Ref) : Nat :=
  Int.natAbs (((h a).row : Int) - ((h b).row : Int)) +
    Int.natAbs (((h a).col : Int) - ((h b).col : Int))

/-- The cell reached from `cur` by following `previousNode` links `n` times;
`none` once the chain has ended. -/
def walkBack (h : Heap) : Nat → Option Ref → Option Ref
  | 0, cur => cur
  | _ + 1, none => none
  | n + 1, some c => walkBack h n (h c).previousNode

/-- `updateUnvisitedNeighbors(node, grid)` together with the record of its
assignments `neighbor.distance = node.distance + 1`, in the order they are
made: the neighbour written and the value written. -/
def updateUnvisitedNeighborsLog (h : Heap) (node : Ref) (grid : Grid) :
    Option (Heap × List (Ref × Option Nat)) :=
  (getUnvisitedNeighbors h node grid).map (fun unvisitedNeighbors =>
    unvisitedNeighbors.foldl
      (fun (st : Heap × List (Ref × Option Nat)) neighbor =>
        (setPreviousNode (setDistance st.1 neighbor ((st.1 node).distance.map (· + 1)))
            neighbor (some node),
          st.2 ++ [(neighbor, (st.1 node).distance.map (· + 1))]))
      (h, []))

/-- The loop of `dijkstra` as in `dijkstraLoop`, carrying along the record of
all assignments to a `distance` field made so far. -/
def dijkstraLoopLog (grid : Grid) (finishNode : Ref) :
    Nat → Heap → List Ref → List Ref → List (Ref × Option Nat) →
      (Heap × Outcome) × List (Ref × Option Nat)
  | 0, h, _, _, log => ((h, Outcome.undefined), log)
  | n + 1, h, unvisitedNodes, visitedNodesInOrder, log =>
    match sortNodesByDistance h unvisitedNodes with
    | [] => ((h, Outcome.undefined), log)
    | closestNode :: rest =>
      if (h closestNode).distance = none then
        ((h, Outcome.returned visitedNodesInOrder), log)
      else
        let h1 := setIsVisited h closestNode true
        let visited1 := visitedNodesInOrder ++ [closestNode]
        if closestNode = finishNode then ((h1, Outcome.returned visited1), log)
        else
          match updateUnvisitedNeighborsLog h1 closestNode grid with
          | none => ((h1, Outcome.typeError), log)
          | some (h2, writes) =>
            dijkstraLoopLog grid finishNode n h2 rest visited1 (log ++ writes)

/-- `dijkstra(grid, startNode, finishNode)` with the record of all assignments
to a `distance` field, beginning with `startNode.distance = 0`. -/
def dijkstraLog (h : Heap) (grid : Grid) (startNode finishNode : Ref) :
    (Heap × Outcome) × List (Ref × Option Nat) :=
  let unvisitedNodes := getAllNodes grid
  let h0 := setDistance h startNode (some 0)
  dijkstraLoopLog grid finishNode unvisitedNodes.length h0 unvisitedNodes []
    [(startNode, some 0)]

/-- What the record says at some point of the search: every value written is
finite and is the current distance of the cell written, and two assignments to
the same cell wrote the same value. -/
def LogAgrees (h : Heap) (log : List (Ref × Option Nat)) : Prop :=
  (∀ w ∈ log, ∃ d, w.2 = some d ∧ (h w.1).distance = some d) ∧
  log.Pairwise (fun earlier later => earlier.1 = later.1 → later.2 = earlier.2)

/-- The React state `grid` of the `Pathfinder` component: rows of node objects.
A `previousNode` stored in a state node names the cell it points to by
`nodeRef`; the application only reads it from nodes it has just reset. -/
abbrev AppGrid := List (List Node)

/-- `GRID_SIZE` of the `Pathfinder` component. -/
def GRID_SIZE : Nat := 20

/-- `createInitialGrid()`: `GRID_SIZE` rows of `GRID_SIZE` fresh nodes, the start
at (10, 5) and the finish at (10, 15). -/
def createInitialGrid : AppGrid :=
  (List.range GRID_SIZE).map (fun row =>
    (List.range GRID_SIZE).map (fun col =>
      { row := row, col := col,
        isStart := row == 10 && col == 5,
        isFinish := row == 10 && col == 15,
        isWall := false, distance := none, isVisited := false, isPath := false,
        previousNode := none }))

/-- The element `grid[row][col]` of the state; `none` for `undefined`. -/
def cellAt (grid : AppGrid) (row col : Nat) : Option Node :=
  (grid[row]?).bind (fun r => r[col]?)

/-- The assignment `newGrid[row][col] = node`, for a position inside the grid. -/
def putCell (grid : AppGrid) (row col : Nat) (node : Node) : AppGrid :=
  grid.set row ((grid.getD row []).set col node)

/-- `toggleWall(grid, row, col)` for a position inside the grid: the cell is
replaced by a copy with `isWall` negated. -/
def toggleWall (grid : AppGrid) (row col : Nat) : AppGrid :=
  match cellAt grid row col with
  | none => grid
  | some node => putCell grid row col { node with isWall := !node.isWall }

/-- The state update of `setStartNode(row, col)` for a position inside the grid:
every node is copied with `isStart: false`, then the cell gets
`isStart: true, isWall: false`. -/
def setStartNode (grid : AppGrid) (row col : Nat) : AppGrid :=
  let newGrid := grid.map (fun rowArray => rowArray.map (fun node =>
    { node with isStart := false }))
  match cellAt newGrid row col with
  | none => newGrid
  | some node => putCell newGrid row col { node with isStart := true, isWall := false }

/-- The state update of `setFinishNode(row, col)` for a position inside the
grid. -/
def setFinishNode (grid : AppGrid) (row col : Nat) : AppGrid :=
  let newGrid := grid.map (fun rowArray => rowArray.map (fun node =>
    { node with isFinish := false }))
  match cellAt newGrid row col with
  | none => newGrid
  | some node => putCell newGrid row col { node with isFinish := true, isWall := false }

/-- The inner loop of `getStartNode` / `getFinishNode` over the columns of one
row: `some (some node)` when a marked node is returned, `some none` when the row
has none, `none` for the `TypeError` of reading a missing cell. -/
def scanCols (mark : Node → Bool) (grid : AppGrid) (row : Nat) :
    List Nat → Option (Option Node)
  | [] => some none
  | col :: cols =>
    match cellAt grid row col with
    | none => none
    | some node => if mark node then some (some node) else scanCols mark grid row cols

/-- The outer loop of `getStartNode` / `getFinishNode` over the rows. -/
def scanRows (mark : Node → Bool) (grid : AppGrid) (width : Nat) :
    List Nat → Option (Option Node)
  | [] => some none
  | row :: rows =>
    match scanCols mark grid row (List.range width) with
    | none => none
    | some (some node) => some (some node)
    | some none => scanRows mark grid width rows

/-- `getStartNode()`: the first node marked `isStart`, scanning rows
`0 … grid.length - 1` and columns `0 … grid[0].length - 1`. -/
def getStartNode (grid : AppGrid) : Option (Option Node) :=
  scanRows (fun node => node.isStart) grid (grid.headD []).length (List.range grid.length)

/-- `getFinishNode()`: the first node marked `isFinish`. -/
def getFinishNode (grid : AppGrid) : Option (Option Node) :=
  scanRows (fun node => node.isFinish) grid (grid.headD []).length (List.range grid.length)

/-- The copy `{...node, distance: Infinity, isVisited: false, isPath: false,
previousNode: null}` made when `visualizeDijkstra` resets the grid. -/
def resetNode (node : Node) : Node :=
  { node with distance := none, isVisited := false, isPath := false, previousNode := none }

/-- The reference naming the node object at a position of the grid being
searched. -/
def nodeRef (row col : Nat) : Ref := Nat.pair row col

/-- The heap holding the node objects of a state grid, each under its
`nodeRef`. -/
def toHeap (grid : AppGrid) : Heap := fun r =>
  (cellAt grid (Nat.unpair r).1 (Nat.unpair r).2).getD
    { row := 0, col := 0, isStart := false, isFinish := false, isWall := false,
      distance := none, isVisited := false, isPath := false, previousNode := none }

/-- The grid of references to the node objects of a state grid. -/
def toRefs (grid : AppGrid) : Grid :=
  (List.range grid.length).map (fun i =>
    (List.range (grid.getD i []).length).map (fun j => nodeRef i j))

/-- The state grid read back from the node objects. -/
def fromHeap (h : Heap) (refs : Grid) : AppGrid :=
  refs.map (fun row => row.map h)

/-- The assignment `target.isPath = b`. -/
def setIsPath (h : Heap) (target : Ref) (b : Bool) : Heap :=
  fun r => if r = target then { h r with isPath := b } else h r

/-- The loops `nodes.forEach(node => newGrid[node.row][node.col].field = true)`
of `visualizeDijkstra`; `none` is the `TypeError` of a missing cell. -/
def markAll (assign : Heap → Ref → Heap) (refs : Grid) : Heap → List Ref → Option Heap
  | h, [] => some h
  | h, node :: rest =>
    match gridAt refs (h node).row (h node).col with
    | none => none
    | some target => markAll assign refs (assign h target) rest

/-- The state update of `visualizeDijkstra()`: the new grid passed to `setGrid`,
or `none` when the handler returns early, throws, or the walk back along
`previousNode` is not finished within `fuel` iterations. -/
def visualizeDijkstra (fuel : Nat) (grid : AppGrid) : Option AppGrid :=
  match getStartNode grid, getFinishNode grid with
  | some (some startNode), some (some finishNode) =>
    let newGrid := grid.map (fun row => row.map resetNode)
    let refs := toRefs newGrid
    match gridAt refs startNode.row startNode.col, gridAt refs finishNode.row finishNode.col with
    | some freshStartNode, some freshFinishNode =>
      match dijkstra (toHeap newGrid) refs freshStartNode freshFinishNode with
      | (h1, Outcome.returned visitedNodesInOrder) =>
        match getNodesInShortestPathOrder fuel h1 freshFinishNode with
        | some nodesInShortestPathOrder =>
          (markAll (fun h t => setIsVisited h t true) refs h1 visitedNodesInOrder).bind
            (fun h2 =>
              (markAll (fun h t => setIsPath h t true) refs h2 nodesInShortestPathOrder).map
                (fun h3 => fromHeap h3 refs))
        | none => none
      | _ => none
    | _, _ => none
  | _, _ => none

/-- One state update of the application: a grid operation with coordinates
inside the grid, a search, or Clear Grid. -/
inductive AppStep : AppGrid → AppGrid → Prop where
  | toggleWall (grid : AppGrid) (row col : Nat) (hrow : row < GRID_SIZE)
      (hcol : col < GRID_SIZE) : AppStep grid (toggleWall grid row col)
  | setStartNode (grid : AppGrid) (row col : Nat) (hrow : row < GRID_SIZE)
      (hcol : col < GRID_SIZE) : AppStep grid (setStartNode grid row col)
  | setFinishNode (grid : AppGrid) (row col : Nat) (hrow : row < GRID_SIZE)
      (hcol : col < GRID_SIZE) : AppStep grid (setFinishNode grid row col)
  | visualizeDijkstra (grid : AppGrid) (fuel : Nat) (newGrid : AppGrid)
      (hrun : visualizeDijkstra fuel grid = some newGrid) : AppStep grid newGrid
  | clearGrid (grid : AppGrid) : AppStep grid createInitialGrid

/-- The grid states the application can reach from `createInitialGrid()`. -/
inductive AppReachable : AppGrid → Prop where
  | init : AppReachable createInitialGrid
  | step (grid newGrid : AppGrid) (hreach : AppReachable grid)
      (hstep : AppStep grid newGrid) : AppReachable newGrid

/-- Exactly one cell of the grid satisfies `mark`: some position holds a marked
node and every marked node sits at that position. -/
def MarkedOnce (mark : Node → Bool) (grid : AppGrid) : Prop :=
  ∃ i j, (∃ node, cellAt grid i j = some node ∧ mark node = true) ∧
    ∀ i' j' node', cellAt grid i' j' = some node' → mark node' = true → i' = i ∧ j' = j

/-- The grid has `GRID_SIZE` rows of `GRID_SIZE` cells. -/
def IsFullSize (grid : AppGrid) : Prop :=
  grid.length = GRID_SIZE ∧ ∀ row ∈ grid, row.length = GRID_SIZE

/-! ## Heap updates -/

theorem getAllNodes_eq_flatten (grid : Grid) : getAllNodes grid = grid.flatten := by
  have inner : ∀ (row acc : List Ref),
      row.foldl (fun nodes node => nodes ++ [node]) acc = acc ++ row := by
    intro row
    induction row with
    | nil => intro acc; simp
    | cons a t ih => intro acc; simp [ih]
  have outer : ∀ (g : Grid) (acc : List Ref),
      g.foldl (fun nodes row => nodes ++ row) acc = acc ++ g.flatten := by
    intro g
    induction g with
    | nil => intro acc; simp
    | cons r t ih => intro acc; simp [ih]
  have hfun : (fun (nodes : List Ref) (row : List Ref) =>
      row.foldl (fun nodes node => nodes ++ [node]) nodes) = (fun nodes row => nodes ++ row) := by
    funext nodes row
    exact inner row nodes
  unfold getAllNodes
  rw [hfun, outer]
  simp

theorem mem_getAllNodes {grid : Grid} {r : Ref} : r ∈ getAllNodes grid ↔ InGrid grid r := by
  rw [getAllNodes_eq_flatten, List.mem_flatten]
  rfl

theorem gridAt_eq_some {grid : Grid} {i j : Nat} {r : Ref} :
    gridAt grid i j = some r ↔ ∃ (hi : i < grid.length) (hj : j < (grid[i]).length),
      (grid[i])[j] = r := by
  unfold gridAt
  constructor
  · intro hg
    rcases hrow : grid[i]? with _ | row
    · simp [hrow] at hg
    · rw [hrow] at hg
      simp only [Option.some_bind] at hg
      obtain ⟨hi, hrow'⟩ := List.getElem?_eq_some_iff.mp hrow
      obtain ⟨hj, hr⟩ := List.getElem?_eq_some_iff.mp hg
      subst hrow'
      exact ⟨hi, hj, hr⟩
  · rintro ⟨hi, hj, hr⟩
    rw [List.getElem?_eq_getElem hi]
    simp only [Option.some_bind]
    rw [List.getElem?_eq_getElem hj, hr]

theorem inGrid_iff_gridAt {grid : Grid} {r : Ref} :
    InGrid grid r ↔ ∃ i j, gridAt grid i j = some r := by
  constructor
  · rintro ⟨row, hrow, hr⟩
    obtain ⟨i, hi, rfl⟩ := List.getElem_of_mem hrow
    obtain ⟨j, hj, rfl⟩ := List.getElem_of_mem hr
    exact ⟨i, j, gridAt_eq_some.mpr ⟨hi, hj, rfl⟩⟩
  · rintro ⟨i, j, hg⟩
    obtain ⟨hi, hj, rfl⟩ := gridAt_eq_some.mp hg
    exact ⟨grid[i], List.getElem_mem _, List.getElem_mem _⟩

@[simp] theorem setDistance_static (h : Heap) (t : Ref) (d : Option Nat) (r : Ref) :
    (setDistance h t d r).row = (h r).row ∧ (setDistance h t d r).col = (h r).col ∧
    (setDistance h t d r).isWall = (h r).isWall ∧
    (setDistance h t d r).isVisited = (h r).isVisited ∧
    (setDistance h t d r).previousNode = (h r).previousNode := by
  unfold setDistance
  split <;> simp

theorem setDistance_distance (h : Heap) (t : Ref) (d : Option Nat) (r : Ref) :
    (setDistance h t d r).distance = if r = t then d else (h r).distance := by
  unfold setDistance
  split <;> simp

@[simp] theorem setPreviousNode_static (h : Heap) (t : Ref) (p : Option Ref) (r : Ref) :
    (setPreviousNode h t p r).row = (h r).row ∧ (setPreviousNode h t p r).col = (h r).col ∧
    (setPreviousNode h t p r).isWall = (h r).isWall ∧
    (setPreviousNode h t p r).isVisited = (h r).isVisited ∧
    (setPreviousNode h t p r).distance = (h r).distance := by
  unfold setPreviousNode
  split <;> simp

theorem setPreviousNode_previousNode (h : Heap) (t : Ref) (p : Option Ref) (r : Ref) :
    (setPreviousNode h t p r).previousNode = if r = t then p else (h r).previousNode := by
  unfold setPreviousNode
  split <;> simp

@[simp] theorem setIsVisited_static (h : Heap) (t : Ref) (b : Bool) (r : Ref) :
    (setIsVisited h t b r).row = (h r).row ∧ (setIsVisited h t b r).col = (h r).col ∧
    (setIsVisited h t b r).isWall = (h r).isWall ∧
    (setIsVisited h t b r).distance = (h r).distance ∧
    (setIsVisited h t b r).previousNode = (h r).previousNode := by
  unfold setIsVisited
  split <;> simp

theorem setIsVisited_isVisited (h : Heap) (t : Ref) (b : Bool) (r : Ref) :
    (setIsVisited h t b r).isVisited = if r = t then b else (h r).isVisited := by
  unfold setIsVisited
  split <;> simp

/-- What the assignment loop of `updateUnvisitedNeighbors` leaves in the heap,
when the expanded node is not one of the neighbours it updates. -/
theorem foldl_assign_spec (node : Ref) :
    ∀ (L : List Ref) (h : Heap), node ∉ L → ∀ x,
      let h2 := L.foldl
        (fun h neighbor =>
          setPreviousNode (setDistance h neighbor ((h node).distance.map (· + 1)))
            neighbor (some node)) h
      (h2 x).row = (h x).row ∧ (h2 x).col = (h x).col ∧ (h2 x).isWall = (h x).isWall ∧
      (h2 x).isVisited = (h x).isVisited ∧
      (h2 x).distance = (if x ∈ L then (h node).distance.map (· + 1) else (h x).distance) ∧
      (h2 x).previousNode = (if x ∈ L then some node else (h x).previousNode) := by
  intro L
  induction L with
  | nil => intro h _ x; simp
  | cons a t ih =>
    intro h hnot x
    have hna : node ≠ a := fun e => hnot (by simp [e])
    have hnt : node ∉ t := fun e => hnot (by simp [e])
    have key := ih (setPreviousNode (setDistance h a ((h node).distance.map (· + 1))) a
      (some node)) hnt x
    simp only [List.foldl_cons]
    obtain ⟨k1, k2, k3, k4, k5, k6⟩ := key
    refine ⟨?_, ?_, ?_, ?_, ?_, ?_⟩
    · rw [k1]; simp
    · rw [k2]; simp
    · rw [k3]; simp
    · rw [k4]; simp
    · rw [k5]
      simp only [setPreviousNode_static, setDistance_distance, if_neg hna, List.mem_cons]
      by_cases hxt : x ∈ t
      · simp [hxt]
      · by_cases hxa : x = a <;> simp [hxt, hxa]
    · rw [k6]
      simp only [setPreviousNode_previousNode, setDistance_static, List.mem_cons]
      by_cases hxt : x ∈ t
      · simp [hxt]
      · by_cases hxa : x = a <;> simp [hxt, hxa]

/-! ## The grid and the neighbours of a cell -/

theorem wf_cell {h : Heap} {grid : Grid} (hwf : WellFormed h grid) {i j : Nat} {r : Ref}
    (hg : gridAt grid i j = some r) : (h r).row = i ∧ (h r).col = j := by
  obtain ⟨hi, hj, rfl⟩ := gridAt_eq_some.mp hg
  exact hwf.2 i hi j hj

theorem wf_gridAt_self {h : Heap} {grid : Grid} (hwf : WellFormed h grid) {r : Ref}
    (hr : InGrid grid r) : gridAt grid (h r).row (h r).col = some r := by
  obtain ⟨i, j, hg⟩ := inGrid_iff_gridAt.mp hr
  obtain ⟨e1, e2⟩ := wf_cell hwf hg
  rw [e1, e2]
  exact hg

theorem wf_bounds {h : Heap} {grid : Grid} (hwf : WellFormed h grid) {i j : Nat} {r : Ref}
    (hg : gridAt grid i j = some r) : i < grid.length ∧ j < (grid.headD []).length := by
  obtain ⟨hi, hj, _⟩ := gridAt_eq_some.mp hg
  refine ⟨hi, ?_⟩
  rw [← hwf.1 _ (List.getElem_mem hi)]
  exact hj

theorem wf_gridAt_some {h : Heap} {grid : Grid} (hwf : WellFormed h grid) {i j : Nat}
    (hi : i < grid.length) (hj : j < (grid.headD []).length) :
    ∃ r, gridAt grid i j = some r := by
  have hlen : (grid[i]).length = (grid.headD []).length := hwf.1 _ (List.getElem_mem hi)
  exact ⟨(grid[i])[j], gridAt_eq_some.mpr ⟨hi, by omega, rfl⟩⟩

/-- Two cells of a well-formed grid with the same coordinates are the same cell. -/
theorem wf_eq_of_coords {h : Heap} {grid : Grid} (hwf : WellFormed h grid) {a b : Ref}
    (ha : InGrid grid a) (hb : InGrid grid b) (hr : (h a).row = (h b).row)
    (hc : (h a).col = (h b).col) : a = b := by
  have h1 := wf_gridAt_self hwf ha
  have h2 := wf_gridAt_self hwf hb
  rw [hr, hc, h2] at h1
  exact (Option.some.inj h1).symm

theorem dir_eq (c : Prop) [Decidable c] (o : Option Ref) (hc : c → ∃ x, o = some x) :
    pushIf c o = some (if c then o.toList else []) := by
  unfold pushIf
  by_cases hcc : c
  · obtain ⟨x, rfl⟩ := hc hcc
    simp [hcc]
  · simp [hcc]

theorem mem_dir (c : Prop) [Decidable c] (o : Option Ref) (x : Ref) :
    x ∈ (if c then o.toList else []) ↔ c ∧ o = some x := by
  by_cases hcc : c
  · simp [hcc, Option.mem_toList, eq_comm]
  · simp [hcc]

/-- In a well-formed grid `getUnvisitedNeighbors` never reads outside the
arrays, and returns exactly the cells of the grid one orthogonal step away
that are neither visited nor walls. -/
theorem getUnvisitedNeighbors_spec {h : Heap} {grid : Grid} {u : Ref}
    (hwf : WellFormed h grid) (hu : InGrid grid u) :
    ∃ L, getUnvisitedNeighbors h u grid = some L ∧
      ∀ x, x ∈ L ↔ (InGrid grid x ∧ Adjacent h u x ∧ (h x).isVisited = false ∧
        (h x).isWall = false) := by
  have hself := wf_gridAt_self hwf hu
  obtain ⟨hi, hj⟩ := wf_bounds hwf hself
  obtain ⟨row0, hrow0, hlen0⟩ : ∃ row0, grid[0]? = some row0 ∧
      row0.length = (grid.headD []).length := by
    cases grid with
    | nil => simp at hi
    | cons r t => exact ⟨r, by simp, by simp⟩
  have e_up := dir_eq ((h u).row > 0) (gridAt grid ((h u).row - 1) (h u).col)
    (fun _ => wf_gridAt_some hwf (by omega) hj)
  have e_down := dir_eq ((h u).row < grid.length - 1) (gridAt grid ((h u).row + 1) (h u).col)
    (fun hc => wf_gridAt_some hwf (by omega) hj)
  have e_left := dir_eq ((h u).col > 0) (gridAt grid (h u).row ((h u).col - 1))
    (fun _ => wf_gridAt_some hwf hi (by omega))
  have e_right := dir_eq ((h u).col < row0.length - 1) (gridAt grid (h u).row ((h u).col + 1))
    (fun hc => wf_gridAt_some hwf hi (by omega))
  refine ⟨(((if (h u).row > 0 then (gridAt grid ((h u).row - 1) (h u).col).toList else []) ++
      (if (h u).row < grid.length - 1 then (gridAt grid ((h u).row + 1) (h u).col).toList
        else []) ++
      (if (h u).col > 0 then (gridAt grid (h u).row ((h u).col - 1)).toList else []) ++
      (if (h u).col < row0.length - 1 then (gridAt grid (h u).row ((h u).col + 1)).toList
        else [])).filter
      (fun neighbor => !(h neighbor).isVisited && !(h neighbor).isWall)), ?_, ?_⟩
  · unfold getUnvisitedNeighbors
    simp only [Option.bind_eq_bind, e_up, e_down, e_left, hrow0, e_right, Option.some_bind]
  · intro x
    simp only [List.mem_filter, List.mem_append, mem_dir, Bool.and_eq_true,
      Bool.not_eq_true']
    constructor
    · rintro ⟨hmem, hv, hw⟩
      have hx : InGrid grid x ∧ Adjacent h u x := by
        rcases hmem with ((⟨hc, hg⟩ | ⟨hc, hg⟩) | ⟨hc, hg⟩) | ⟨hc, hg⟩
        all_goals
          refine ⟨inGrid_iff_gridAt.mpr ⟨_, _, hg⟩, ?_⟩
          obtain ⟨e1, e2⟩ := wf_cell hwf hg
          unfold Adjacent
          omega
      exact ⟨hx.1, hx.2, hv, hw⟩
    · rintro ⟨hx, hadj, hv, hw⟩
      refine ⟨?_, hv, hw⟩
      have hxs := wf_gridAt_self hwf hx
      obtain ⟨hxi, hxj⟩ := wf_bounds hwf hxs
      unfold Adjacent at hadj
      rcases hadj with ⟨er, ec | ec⟩ | ⟨ec, er | er⟩
      · right
        refine ⟨by omega, ?_⟩
        rw [er, ec]; exact hxs
      · left; right
        refine ⟨by omega, ?_⟩
        have : (h u).col - 1 = (h x).col := by omega
        rw [er, this]; exact hxs
      · left; left; right
        refine ⟨by omega, ?_⟩
        rw [ec, er]; exact hxs
      · left; left; left
        refine ⟨by omega, ?_⟩
        have : (h u).row - 1 = (h x).row := by omega
        rw [ec, this]; exact hxs

theorem wf_of_static {h₀ h : Heap} {grid : Grid} (hwf : WellFormed h₀ grid)
    (hst : ∀ r, (h r).row = (h₀ r).row ∧ (h r).col = (h₀ r).col ∧
      (h r).isWall = (h₀ r).isWall) : WellFormed h grid := by
  refine ⟨hwf.1, ?_⟩
  intro i hi j hj
  obtain ⟨e1, e2, _⟩ := hst ((grid[i])[j])
  rw [e1, e2]
  exact hwf.2 i hi j hj

theorem adjacent_of_static {h₀ h : Heap}
    (hst : ∀ r, (h r).row = (h₀ r).row ∧ (h r).col = (h₀ r).col ∧
      (h r).isWall = (h₀ r).isWall) (a b : Ref) : Adjacent h a b ↔ Adjacent h₀ a b := by
  unfold Adjacent
  rw [(hst a).1, (hst a).2.1, (hst b).1, (hst b).2.1]

theorem adjacent_symm {h : Heap} {a b : Ref} (hab : Adjacent h a b) : Adjacent h b a := by
  unfold Adjacent at *
  omega

theorem adjacent_parity {h : Heap} {a b : Ref} (hab : Adjacent h a b) :
    ((h a).row + (h a).col + 1) % 2 = ((h b).row + (h b).col) % 2 := by
  unfold Adjacent at hab
  omega

theorem nodup_getAllNodes {h : Heap} {grid : Grid} (hwf : WellFormed h grid) :
    (getAllNodes grid).Nodup := by
  rw [getAllNodes_eq_flatten, List.nodup_flatten]
  constructor
  · intro row hrow
    obtain ⟨i, hi, rfl⟩ := List.getElem_of_mem hrow
    rw [List.nodup_iff_injective_get]
    intro a b hab
    have ha := (hwf.2 i hi a.1 a.2).2
    have hb := (hwf.2 i hi b.1 b.2).2
    apply Fin.ext
    have hab' : (grid[i])[a.1] = (grid[i])[b.1] := by
      simpa [List.get_eq_getElem] using hab
    rw [hab'] at ha
    omega
  · rw [List.pairwise_iff_getElem]
    intro i j hi hj hij
    show List.Disjoint _ _
    rw [List.disjoint_left]
    intro r hr1 hr2
    obtain ⟨a, ha, e1⟩ := List.getElem_of_mem hr1
    obtain ⟨b, hb, e2⟩ := List.getElem_of_mem hr2
    have h1 := (hwf.2 i hi a ha).1
    have h2 := (hwf.2 j hj b hb).1
    rw [e1] at h1
    rw [e2] at h2
    omega

/-! ## The sort -/

theorem compareDistance_le_iff (a b : Option Nat) :
    compareDistance a b ≤ 0 ↔ (b = none ∨ ∃ x y, a = some x ∧ b = some y ∧ x ≤ y) := by
  cases a <;> cases b <;> simp [compareDistance]

theorem sortNodesByDistance_perm (h : Heap) (U : List Ref) :
    (sortNodesByDistance h U).Perm U :=
  List.perm_insertionSort _ U

theorem sortNodesByDistance_head_le (h : Heap) (U : List Ref) (c : Ref) (rest : List Ref)
    (hs : sortNodesByDistance h U = c :: rest) :
    ∀ x ∈ rest, compareDistance (h c).distance (h x).distance ≤ 0 := by
  haveI : IsTotal Ref
      (fun nodeA nodeB => compareDistance (h nodeA).distance (h nodeB).distance ≤ 0) :=
    ⟨by
      intro a b
      simp only [compareDistance_le_iff]
      rcases (h a).distance with _ | x <;> rcases (h b).distance with _ | y <;> simp
      omega⟩
  haveI : IsTrans Ref
      (fun nodeA nodeB => compareDistance (h nodeA).distance (h nodeB).distance ≤ 0) :=
    ⟨by
      intro a b c
      simp only [compareDistance_le_iff]
      rcases (h a).distance with _ | x <;> rcases (h b).distance with _ | y <;>
        rcases (h c).distance with _ | z <;> simp
      omega⟩
  have hsorted := List.sorted_insertionSort
    (fun nodeA nodeB => compareDistance (h nodeA).distance (h nodeB).distance ≤ 0) U
  unfold sortNodesByDistance at hs
  rw [hs] at hsorted
  exact fun x hx => List.rel_of_sorted_cons hsorted x hx

/-! ## The latest adjacent cell of a list -/

theorem takeWhile_ne_of_not_mem (x : Ref) :
    ∀ (E : List Ref), x ∉ E → E.takeWhile (fun u => decide (u ≠ x)) = E := by
  intro E
  induction E with
  | nil => intro _; rfl
  | cons a t ih =>
    intro hx
    have hax : a ≠ x := fun e => hx (by simp [e])
    have hxt : x ∉ t := fun e => hx (by simp [e])
    have key : decide (a ≠ x) = true := decide_eq_true hax
    simp only [List.takeWhile_cons, key, if_true, ih hxt]

theorem takeWhile_ne_append_of_mem (x : Ref) (l : List Ref) :
    ∀ (E : List Ref), x ∈ E →
      (E ++ l).takeWhile (fun u => decide (u ≠ x)) = E.takeWhile (fun u => decide (u ≠ x)) := by
  intro E
  induction E with
  | nil => intro hx; simp at hx
  | cons a t ih =>
    intro hx
    by_cases hax : a = x
    · simp [List.takeWhile_cons, hax]
    · have hxt : x ∈ t := by
        rcases List.mem_cons.mp hx with e | e
        · exact absurd e.symm hax
        · exact e
      have key : decide (a ≠ x) = true := decide_eq_true hax
      simp only [List.cons_append, List.takeWhile_cons, key, if_true, ih hxt]

theorem lastReachedFrom_append_of_mem (h : Heap) (E l : List Ref) (x : Ref) (hx : x ∈ E) :
    lastReachedFrom h (E ++ l) x = lastReachedFrom h E x := by
  unfold lastReachedFrom
  rw [takeWhile_ne_append_of_mem x l E hx]

theorem lastReachedFrom_append_self (h : Heap) (E : List Ref) (c : Ref) (hc : c ∉ E) :
    lastReachedFrom h (E ++ [c]) c = lastReachedFrom h E c := by
  unfold lastReachedFrom
  rw [List.takeWhile_append, takeWhile_ne_of_not_mem c E hc]
  simp

theorem lastReachedFrom_append_other (h : Heap) (E : List Ref) (c x : Ref) (hx : x ∉ E)
    (hcx : x ≠ c) :
    lastReachedFrom h (E ++ [c]) x =
      if Adjacent h c x ∧ (h x).isWall = false then some c else lastReachedFrom h E x := by
  have hnot : x ∉ E ++ [c] := by
    simp [hx, hcx]
  unfold lastReachedFrom
  rw [takeWhile_ne_of_not_mem x _ hnot, takeWhile_ne_of_not_mem x E hx, List.filter_append]
  by_cases hadj : Adjacent h c x ∧ (h x).isWall = false
  · have : (decide (Adjacent h c x) && !(h x).isWall) = true := by
      simp [hadj.1, hadj.2]
    simp [List.filter_cons, this, hadj]
  · have : (decide (Adjacent h c x) && !(h x).isWall) = false := by
      by_cases h1 : Adjacent h c x
      · have h2 : (h x).isWall = true := by
          by_contra hw
          exact hadj ⟨h1, by simpa using hw⟩
        simp [h2]
      · simp [h1]
    simp only [List.filter_cons, this, List.filter_nil, List.append_nil, if_neg hadj]
    simp

theorem lastReachedFrom_some {h : Heap} {E : List Ref} {x p : Ref}
    (hp : lastReachedFrom h E x = some p) :
    p ∈ E ∧ Adjacent h p x ∧ (h x).isWall = false := by
  unfold lastReachedFrom at hp
  have hmem := List.mem_of_getLast?_eq_some hp
  rw [List.mem_filter] at hmem
  obtain ⟨h1, h2⟩ := hmem
  simp only [Bool.and_eq_true, decide_eq_true_eq, Bool.not_eq_true'] at h2
  exact ⟨(List.takeWhile_sublist _).subset h1, h2.1, h2.2⟩

/-! ## The loop invariant -/

theorem isReset_cell {h : Heap} {grid : Grid} (hreset : IsReset h grid) {r : Ref}
    (hr : InGrid grid r) :
    (h r).distance = none ∧ (h r).isVisited = false ∧ (h r).previousNode = none := by
  obtain ⟨row, h1, h2⟩ := hr
  exact hreset row h1 r h2

/-- The invariant holds when the loop is entered. -/
theorem searchInv_init {h₀ : Heap} {grid : Grid} {s f : Ref} (hreset : IsReset h₀ grid)
    (hs : InGrid grid s) :
    SearchInv h₀ grid s f (setDistance h₀ s (some 0)) (getAllNodes grid) [] [] := by
  have hdist : ∀ r, InGrid grid r → ∀ d, (setDistance h₀ s (some 0) r).distance = some d →
      r = s ∧ d = 0 := by
    intro r hr d hd
    rw [setDistance_distance] at hd
    by_cases hrs : r = s
    · rw [if_pos hrs] at hd
      exact ⟨hrs, (Option.some.inj hd).symm⟩
    · rw [if_neg hrs, (isReset_cell hreset hr).1] at hd
      exact absurd hd (by simp)
  refine
    { static := ?_, perm := ?_, visited := ?_, tail := ?_, finish := ?_, start := ?_,
      head := ?_, fresh := ?_, level := ?_, mono := ?_, parity := ?_, pred := ?_,
      reached := ?_, relax := ?_, last := ?_ }
  · intro r; simp
  · simp
  · intro r hr
    simp [(isReset_cell hreset hr).2.1]
  · exact Or.inl rfl
  · simp
  · refine ⟨by simp [setDistance_distance], ?_⟩
    simp [(isReset_cell hreset hs).2.2]
  · intro v hv; simp at hv
  · intro _ r hr hrs
    rw [setDistance_distance, if_neg hrs]
    exact (isReset_cell hreset hr).1
  · refine ⟨0, ?_, ?_, ?_⟩
    · intro v hv; simp at hv
    · intro v hv; simp at hv
    · intro r hr _ d hd
      obtain ⟨_, e⟩ := hdist r hr d hd
      omega
  · exact List.chain'_nil
  · intro r hr d hd
    obtain ⟨e1, e2⟩ := hdist r hr d hd
    subst e1 e2
    simp
  · intro r hr p hp
    simp [(isReset_cell hreset hr).2.2] at hp
  · intro r hr hrs hd
    rw [setDistance_distance, if_neg hrs] at hd
    exact absurd (isReset_cell hreset hr).1 hd
  · intro u hu; simp at hu
  · intro x hx
    simp [lastReachedFrom, (isReset_cell hreset hx).2.2]

theorem distStep_setIsVisited (h : Heap) (c : Ref) (b : Bool) :
    DistStep (setIsVisited h c b) = DistStep h := by
  funext x y
  simp [DistStep]

/-- Shifting the closest node off the sorted list, marking it visited and
pushing it on the visited order keeps the invariant; its neighbours are not
updated yet. -/
theorem searchInv_visit {h₀ : Heap} {grid : Grid} {s f : Ref} {h : Heap} {U V : List Ref}
    {c : Ref} {rest : List Ref} {m : Nat} (hwf : WellFormed h₀ grid)
    (inv : SearchInv h₀ grid s f h U V V)
    (hsort : sortNodesByDistance h U = c :: rest) (hd : (h c).distance = some m) :
    SearchInv h₀ grid s f (setIsVisited h c true) rest (V ++ [c]) V ∧ c ∉ V ∧
      InGrid grid c := by
  have hperm : (c :: rest).Perm U := hsort ▸ sortNodesByDistance_perm h U
  have hcU : c ∈ U := hperm.subset (List.mem_cons_self c rest)
  have hcin : InGrid grid c :=
    mem_getAllNodes.mp (inv.perm.subset (List.mem_append_right V hcU))
  have hnodup : (V ++ U).Nodup := inv.perm.nodup_iff.mpr (nodup_getAllNodes hwf)
  have hcV : c ∉ V := fun hv => (List.nodup_append.mp hnodup).2.2 hv hcU
  have hmemU : ∀ r, InGrid grid r → r ∉ V → r ∈ U := by
    intro r hr hrV
    have := inv.perm.symm.subset (mem_getAllNodes.mpr hr)
    rcases List.mem_append.mp this with e | e
    · exact absurd e hrV
    · exact e
  obtain ⟨k, hk1, hk2, hk3⟩ := inv.level
  have hkm : k ≤ m ∧ m ≤ k + 1 := hk3 c hcin hcV m hd
  have hmin := sortNodesByDistance_head_le h U c rest hsort
  refine ⟨?_, hcV, hcin⟩
  refine
    { static := ?_, perm := ?_, visited := ?_, tail := ?_, finish := ?_, start := ?_,
      head := ?_, fresh := ?_, level := ?_, mono := ?_, parity := ?_, pred := ?_,
      reached := ?_, relax := ?_, last := ?_ }
  · intro r
    simpa using inv.static r
  · have h1 : (V ++ [c] ++ rest).Perm (V ++ (c :: rest)) := by simp
    exact (h1.trans (List.Perm.append_left V hperm)).trans inv.perm
  · intro r hr
    rw [setIsVisited_isVisited]
    by_cases hrc : r = c
    · simp [hrc]
    · rw [if_neg hrc, inv.visited r hr]
      simp [hrc]
  · exact Or.inr ⟨c, rfl, hcV⟩
  · exact inv.finish
  · simpa using inv.start
  · intro v hv
    cases V with
    | nil =>
      simp at hv
      subst hv
      by_contra hne
      have := inv.fresh rfl c hcin hne
      rw [hd] at this
      exact absurd this (by simp)
    | cons a t =>
      simp at hv
      exact inv.head v (by simp [hv])
  · intro hnil
    simp at hnil
  · refine ⟨m, ?_, ?_, ?_⟩
    · intro v hv
      rw [List.getLast?_concat] at hv
      have : v = c := (Option.some.inj hv).symm
      subst this
      simpa using hd
    · intro v hv
      rcases List.mem_append.mp hv with e | e
      · obtain ⟨d, h1, h2⟩ := hk2 v e
        exact ⟨d, by simpa using h1, by omega⟩
      · have : v = c := by simpa using e
        subst this
        exact ⟨m, by simpa using hd, le_refl m⟩
    · intro r hr hrV d hdr
      simp only [setIsVisited_static] at hdr
      have hrU := hmemU r hr hrV
      have hb := hk3 r hr hrV d hdr
      rcases List.mem_cons.mp (hperm.symm.subset hrU) with e | e
      · subst e
        rw [hd] at hdr
        have := Option.some.inj hdr
        omega
      · have hle := hmin r e
        rw [compareDistance_le_iff, hd, hdr] at hle
        rcases hle with hle | ⟨x, y, e1, e2, e3⟩
        · exact absurd hle (by simp)
        · have := Option.some.inj e1
          have := Option.some.inj e2
          omega
  · rw [distStep_setIsVisited, List.chain'_append]
    refine ⟨inv.mono, List.chain'_singleton c, ?_⟩
    intro x hx y hy
    have hy' : y = c := by simpa using hy.symm
    subst hy'
    exact ⟨k, m, hk1 x hx, hd, hkm.1, hkm.2⟩
  · intro r hr d hdr
    simp only [setIsVisited_static] at hdr
    exact inv.parity r hr d hdr
  · intro r hr p hp
    simp only [setIsVisited_static] at hp ⊢
    exact inv.pred r hr p hp
  · intro r hr hrs hdr
    simp only [setIsVisited_static] at hdr ⊢
    exact inv.reached r hr hrs hdr
  · intro u hu x hx hadj hw
    simp only [setIsVisited_static]
    exact inv.relax u hu x hx hadj hw
  · intro x hx
    simp only [setIsVisited_static]
    exact inv.last x hx

/-- Updating the neighbours of the node just visited keeps the invariant, never
reads outside the grid, and leaves every finite distance as it was. -/
theorem searchInv_expand {h₀ : Heap} {grid : Grid} {s f : Ref} {h1 : Heap}
    {U E : List Ref} {c : Ref} (hwf : WellFormed h₀ grid)
    (inv : SearchInv h₀ grid s f h1 U (E ++ [c]) E) (hcf : c ≠ f) (hcin : InGrid grid c)
    (hcE : c ∉ E) :
    ∃ h2, updateUnvisitedNeighbors h1 c grid = some h2 ∧
      SearchInv h₀ grid s f h2 U (E ++ [c]) (E ++ [c]) ∧
      (∀ r d, (h1 r).distance = some d → (h2 r).distance = some d) := by
  have hwf1 : WellFormed h1 grid := wf_of_static hwf inv.static
  obtain ⟨L, hL, hLmem⟩ := getUnvisitedNeighbors_spec hwf1 hcin
  have hLmem2 : ∀ x, x ∈ L ↔ (InGrid grid x ∧ Adjacent h₀ c x ∧ x ∉ E ++ [c] ∧
      (h₀ x).isWall = false) := by
    intro x
    rw [hLmem x, adjacent_of_static inv.static, (inv.static x).2.2]
    constructor
    · rintro ⟨a, b, hv, d⟩
      refine ⟨a, b, ?_, d⟩
      intro hmem
      rw [(inv.visited x a).mpr hmem] at hv
      exact absurd hv (by simp)
    · rintro ⟨a, b, hv, d⟩
      refine ⟨a, b, ?_, d⟩
      by_contra hne
      exact hv ((inv.visited x a).mp (by simpa using hne))
  have hcL : c ∉ L := fun hm => ((hLmem2 c).mp hm).2.2.1 (by simp)
  obtain ⟨k, hk1, hk2, hk3⟩ := inv.level
  have hck : (h1 c).distance = some k := hk1 c (List.getLast?_concat E)
  have spec := foldl_assign_spec c L h1 hcL
  refine ⟨L.foldl (fun h neighbor =>
      setPreviousNode (setDistance h neighbor ((h c).distance.map (· + 1)))
        neighbor (some c)) h1, ?_, ?_⟩
  · unfold updateUnvisitedNeighbors
    rw [hL]
    rfl
  generalize hh2 : L.foldl (fun h neighbor =>
      setPreviousNode (setDistance h neighbor ((h c).distance.map (· + 1)))
        neighbor (some c)) h1 = h2 at spec ⊢
  have st2 : ∀ x, (h2 x).row = (h1 x).row ∧ (h2 x).col = (h1 x).col ∧
      (h2 x).isWall = (h1 x).isWall ∧ (h2 x).isVisited = (h1 x).isVisited := by
    intro x
    obtain ⟨a1, a2, a3, a4, _, _⟩ := spec x
    exact ⟨a1, a2, a3, a4⟩
  have d2 : ∀ x, (h2 x).distance = if x ∈ L then some (k + 1) else (h1 x).distance := by
    intro x
    obtain ⟨_, _, _, _, a5, _⟩ := spec x
    rw [a5, hck]
    rfl
  have p2 : ∀ x, (h2 x).previousNode = if x ∈ L then some c else (h1 x).previousNode := by
    intro x
    obtain ⟨_, _, _, _, _, a6⟩ := spec x
    exact a6
  have hnew : ∀ r d, r ∈ L → (h1 r).distance = some d → d = k + 1 := by
    intro r d hr hd
    obtain ⟨a, b, hv, _⟩ := (hLmem2 r).mp hr
    have hrE : r ∉ E := fun e => hv (List.mem_append_left _ e)
    have hb := hk3 r a hrE d hd
    have p1 := inv.parity r a d hd
    have p2 := inv.parity c hcin k hck
    have p3 := adjacent_parity b
    omega
  have hkeep : ∀ r d, (h1 r).distance = some d → (h2 r).distance = some d := by
    intro r d hd
    rw [d2]
    by_cases hr : r ∈ L
    · rw [if_pos hr, hnew r d hr hd]
    · rw [if_neg hr, hd]
  have hsV : s ∈ E ++ [c] := by
    cases hE : E ++ [c] with
    | nil => simp at hE
    | cons a t =>
      have := inv.head a (by simp [hE])
      subst this
      simp
  refine ⟨?_, hkeep⟩
  refine
    { static := ?_, perm := ?_, visited := ?_, tail := ?_, finish := ?_, start := ?_,
      head := ?_, fresh := ?_, level := ?_, mono := ?_, parity := ?_, pred := ?_,
      reached := ?_, relax := ?_, last := ?_ }
  · intro r
    obtain ⟨a1, a2, a3, _⟩ := st2 r
    rw [a1, a2, a3]
    exact inv.static r
  · exact inv.perm
  · intro r hr
    rw [(st2 r).2.2.2]
    exact inv.visited r hr
  · exact Or.inl rfl
  · intro hf
    rcases List.mem_append.mp hf with e | e
    · exact inv.finish e
    · exact hcf (List.mem_singleton.mp e).symm
  · refine ⟨hkeep s 0 inv.start.1, ?_⟩
    rw [p2, if_neg (fun hm => ((hLmem2 s).mp hm).2.2.1 hsV)]
    exact inv.start.2
  · exact inv.head
  · intro hnil
    simp at hnil
  · refine ⟨k, ?_, ?_, ?_⟩
    · intro v hv
      exact hkeep v k (hk1 v hv)
    · intro v hv
      obtain ⟨d, e1, e2⟩ := hk2 v hv
      exact ⟨d, hkeep v d e1, e2⟩
    · intro r hr hrV d hd
      rw [d2] at hd
      by_cases hrL : r ∈ L
      · rw [if_pos hrL] at hd
        have := Option.some.inj hd
        omega
      · rw [if_neg hrL] at hd
        exact hk3 r hr (fun e => hrV (List.mem_append_left _ e)) d hd
  · refine inv.mono.imp ?_
    rintro a b ⟨da, db, e1, e2, e3, e4⟩
    exact ⟨da, db, hkeep a da e1, hkeep b db e2, e3, e4⟩
  · intro r hr d hd
    rw [d2] at hd
    by_cases hrL : r ∈ L
    · rw [if_pos hrL] at hd
      have e := Option.some.inj hd
      have q2 := inv.parity c hcin k hck
      have q3 := adjacent_parity ((hLmem2 r).mp hrL).2.1
      omega
    · rw [if_neg hrL] at hd
      exact inv.parity r hr d hd
  · intro r hr p hp
    rw [p2] at hp
    by_cases hrL : r ∈ L
    · rw [if_pos hrL] at hp
      have e : c = p := Option.some.inj hp
      subst e
      obtain ⟨_, b, _, d⟩ := (hLmem2 r).mp hrL
      refine ⟨by simp, b, d, k, hkeep c k hck, ?_⟩
      rw [d2, if_pos hrL]
    · rw [if_neg hrL] at hp
      obtain ⟨a, b, d, dd, e1, e2⟩ := inv.pred r hr p hp
      exact ⟨List.mem_append_left _ a, b, d, dd, hkeep p dd e1, hkeep r (dd + 1) e2⟩
  · intro r hr hrs hd
    rw [p2]
    by_cases hrL : r ∈ L
    · rw [if_pos hrL]; simp
    · rw [if_neg hrL]
      rw [d2, if_neg hrL] at hd
      exact inv.reached r hr hrs hd
  · intro u hu x hx hadj hw
    rcases List.mem_append.mp hu with e | e
    · obtain ⟨d, d', e1, e2, e3⟩ := inv.relax u e x hx hadj hw
      exact ⟨d, d', hkeep u d e1, hkeep x d' e2, e3⟩
    · have e' : u = c := by simpa using e
      subst e'
      by_cases hxV : x ∈ E ++ [u]
      · obtain ⟨d', e1, e2⟩ := hk2 x hxV
        exact ⟨k, d', hkeep u k hck, hkeep x d' e1, by omega⟩
      · have hxL : x ∈ L := (hLmem2 x).mpr ⟨hx, hadj, hxV, hw⟩
        refine ⟨k, k + 1, hkeep u k hck, ?_, le_refl _⟩
        rw [d2, if_pos hxL]
  · intro x hx
    rw [p2]
    by_cases hxE : x ∈ E
    · have hxL : x ∉ L := fun hm => ((hLmem2 x).mp hm).2.2.1 (List.mem_append_left _ hxE)
      rw [if_neg hxL, lastReachedFrom_append_of_mem h₀ E [c] x hxE]
      exact inv.last x hx
    · by_cases hxc : x = c
      · subst hxc
        rw [if_neg hcL, lastReachedFrom_append_self h₀ E x hxE]
        exact inv.last x hx
      · rw [lastReachedFrom_append_other h₀ E c x hxE hxc]
        have hxV : x ∉ E ++ [c] := by simp [hxE, hxc]
        by_cases hadj : Adjacent h₀ c x ∧ (h₀ x).isWall = false
        · rw [if_pos hadj, if_pos ((hLmem2 x).mpr ⟨hx, hadj.1, hxV, hadj.2⟩)]
        · have hxL : x ∉ L := fun hm =>
            hadj ⟨((hLmem2 x).mp hm).2.1, ((hLmem2 x).mp hm).2.2.2⟩
          rw [if_neg hadj, if_neg hxL]
          exact inv.last x hx

/-- The loop of `dijkstra`, started in a state that satisfies the invariant with
the finish cell still unvisited, leaves through one of its two `return`
statements: either every remaining cell has distance `Infinity`, or the finish
cell has just been pushed on the visited order. -/
theorem dijkstraLoop_spec {h₀ : Heap} {grid : Grid} {s f : Ref} (hwf : WellFormed h₀ grid)
    (hf : InGrid grid f) :
    ∀ (n : Nat) (h : Heap) (U V : List Ref), U.length = n → SearchInv h₀ grid s f h U V V →
      ∃ h' U' V' E', dijkstraLoop grid f n h U V = (h', Outcome.returned V') ∧
        SearchInv h₀ grid s f h' U' V' E' ∧
        ((V' = E' ∧ ∀ r, InGrid grid r → r ∉ V' → (h' r).distance = none) ∨
          V' = E' ++ [f]) := by
  intro n
  induction n with
  | zero =>
    intro h U V hlen inv
    have hU : U = [] := List.length_eq_zero.mp hlen
    subst hU
    have := inv.perm.symm.subset (mem_getAllNodes.mpr hf)
    simp only [List.append_nil] at this
    exact absurd this inv.finish
  | succ n ih =>
    intro h U V hlen inv
    have hperm := sortNodesByDistance_perm h U
    rcases hsort : sortNodesByDistance h U with _ | ⟨c, rest⟩
    · rw [hsort] at hperm
      have := hperm.length_eq
      simp at this
      omega
    · rw [hsort] at hperm
      have hrest : rest.length = n := by
        have := hperm.length_eq
        simp at this
        omega
      have hmemU : ∀ r, InGrid grid r → r ∉ V → r ∈ c :: rest := by
        intro r hr hrV
        have := inv.perm.symm.subset (mem_getAllNodes.mpr hr)
        rcases List.mem_append.mp this with e | e
        · exact absurd e hrV
        · exact hperm.symm.subset e
      by_cases hd : (h c).distance = none
      · refine ⟨h, U, V, V, ?_, inv, Or.inl ⟨rfl, ?_⟩⟩
        · simp only [dijkstraLoop, hsort, hd, if_true]
        · intro r hr hrV
          rcases List.mem_cons.mp (hmemU r hr hrV) with e | e
          · rw [e]; exact hd
          · have hle := sortNodesByDistance_head_le h U c rest hsort r e
            rw [compareDistance_le_iff, hd] at hle
            rcases hle with hle | ⟨x, y, e1, _, _⟩
            · exact hle
            · exact absurd e1 (by simp)
      · obtain ⟨m, hm⟩ := Option.ne_none_iff_exists'.mp hd
        obtain ⟨inv1, hcV, hcin⟩ := searchInv_visit hwf inv hsort hm
        by_cases hcf : c = f
        · subst hcf
          refine ⟨setIsVisited h c true, rest, V ++ [c], V, ?_, inv1, Or.inr rfl⟩
          simp only [dijkstraLoop, hsort, hd, if_false, if_true]
        · obtain ⟨h2, hupd, inv2, _⟩ := searchInv_expand hwf inv1 hcf hcin hcV
          obtain ⟨h', U', V', E', hrun, hinv, hexit⟩ := ih h2 rest (V ++ [c]) hrest inv2
          refine ⟨h', U', V', E', ?_, hinv, hexit⟩
          simp only [dijkstraLoop, hsort, hd, if_false, hcf, hupd]
          exact hrun

/-- On a well-formed reset grid with the start and finish cells in the grid,
`dijkstra` returns a visited order, and the final state satisfies the
invariant in one of the two exit shapes. -/
theorem dijkstra_spec {h₀ : Heap} {grid : Grid} {s f : Ref} (hwf : WellFormed h₀ grid)
    (hreset : IsReset h₀ grid) (hs : InGrid grid s) (hf : InGrid grid f) :
    ∃ h' U' V' E', dijkstra h₀ grid s f = (h', Outcome.returned V') ∧
      SearchInv h₀ grid s f h' U' V' E' ∧
      ((V' = E' ∧ ∀ r, InGrid grid r → r ∉ V' → (h' r).distance = none) ∨
        V' = E' ++ [f]) := by
  unfold dijkstra
  exact dijkstraLoop_spec hwf hf _ _ _ _ rfl (searchInv_init hreset hs)

/-! ## Routes -/

theorem isRoute_singleton {h : Heap} {grid : Grid} {a x c : Ref}
    (hr : IsRoute h grid a x [c]) : c = a ∧ x = a := by
  obtain ⟨h1, h2, _, _⟩ := hr
  have e1 : c = a := by simpa using h1
  have e2 : c = x := by simpa using h2
  exact ⟨e1, e2 ▸ e1⟩

theorem isRoute_cons_cons {h : Heap} {grid : Grid} {a x c b : Ref} {t : List Ref}
    (hr : IsRoute h grid a x (c :: b :: t)) :
    c = a ∧ Adjacent h a b ∧ InGrid grid b ∧ (h b).isWall = false ∧
      IsRoute h grid b x (b :: t) := by
  obtain ⟨h1, h2, h3, h4⟩ := hr
  have hca : c = a := by simpa using h1
  subst hca
  rw [List.chain'_cons] at h4
  rw [List.getLast?_cons_cons] at h2
  have hb := h3 b (by simp)
  refine ⟨rfl, h4.1, hb.1, hb.2, by simp, h2, ?_, h4.2⟩
  intro y hy
  exact h3 y (List.mem_cons_of_mem _ hy)

theorem isRoute_snoc {h : Heap} {grid : Grid} {a b x : Ref} {q : List Ref}
    (hq : IsRoute h grid a b q) (hadj : Adjacent h b x) (hx : InGrid grid x)
    (hw : (h x).isWall = false) : IsRoute h grid a x (q ++ [x]) := by
  obtain ⟨h1, h2, h3, h4⟩ := hq
  refine ⟨?_, List.getLast?_concat q, ?_, ?_⟩
  · rw [List.head?_append, h1]
    rfl
  · intro y hy
    rcases List.mem_append.mp hy with e | e
    · exact h3 y e
    · rw [List.mem_singleton.mp e]
      exact ⟨hx, hw⟩
  · rw [List.chain'_append]
    refine ⟨h4, List.chain'_singleton x, ?_⟩
    intro u hu v hv
    rw [h2] at hu
    have e1 : u = b := (Option.some.inj hu).symm
    have e2 : v = x := by simpa using hv.symm
    rw [e1, e2]
    exact hadj

theorem isRoute_last_mem {h : Heap} {grid : Grid} {a x : Ref} {p : List Ref}
    (hr : IsRoute h grid a x p) : InGrid grid x ∧ (h x).isWall = false :=
  hr.2.2.1 x (List.mem_of_getLast?_eq_some hr.2.1)

theorem isRoute_head_mem {h : Heap} {grid : Grid} {a x : Ref} {p : List Ref}
    (hr : IsRoute h grid a x p) : InGrid grid a ∧ (h a).isWall = false :=
  hr.2.2.1 a (List.mem_of_mem_head? hr.1)

/-! ## What the invariant says about the final state -/

theorem inv_expanded_visited {h₀ : Heap} {grid : Grid} {s f : Ref} {h : Heap}
    {U V E : List Ref} (inv : SearchInv h₀ grid s f h U V E) : ∀ x ∈ E, x ∈ V := by
  intro x hx
  rcases inv.tail with e | ⟨c, e, _⟩
  · rw [e]; exact hx
  · rw [e]; exact List.mem_append_left _ hx

theorem inv_visited_inGrid {h₀ : Heap} {grid : Grid} {s f : Ref} {h : Heap}
    {U V E : List Ref} (inv : SearchInv h₀ grid s f h U V E) : ∀ x ∈ V, InGrid grid x :=
  fun _ hx => mem_getAllNodes.mp (inv.perm.subset (List.mem_append_left _ hx))

theorem inv_visited_nodup {h₀ : Heap} {grid : Grid} {s f : Ref} {h : Heap}
    {U V E : List Ref} (hwf : WellFormed h₀ grid) (inv : SearchInv h₀ grid s f h U V E) :
    V.Nodup :=
  (List.nodup_append.mp (inv.perm.nodup_iff.mpr (nodup_getAllNodes hwf))).1

theorem inv_visited_dist {h₀ : Heap} {grid : Grid} {s f : Ref} {h : Heap}
    {U V E : List Ref} (inv : SearchInv h₀ grid s f h U V E) :
    ∀ x ∈ V, ∃ d, (h x).distance = some d := by
  obtain ⟨k, _, hk2, _⟩ := inv.level
  intro x hx
  obtain ⟨d, e, _⟩ := hk2 x hx
  exact ⟨d, e⟩

/-- Following `previousNode` from a cell with finite distance `d` takes `d + 1`
iterations and yields a route of `d + 1` cells from the start to that cell. -/
theorem pathLoop_spec {h₀ : Heap} {grid : Grid} {s f : Ref} {h : Heap}
    {U V E : List Ref} (inv : SearchInv h₀ grid s f h U V E) (hs : InGrid grid s)
    (hsw : (h₀ s).isWall = false) :
    ∀ (d : Nat) (r : Ref) (acc : List Ref) (fuel : Nat), InGrid grid r →
      (h r).distance = some d → d + 1 ≤ fuel →
      ∃ p, pathLoop h fuel (some r) acc = some (p ++ acc) ∧ p.length = d + 1 ∧
        IsRoute h₀ grid s r p := by
  have hstart : ∀ (acc : List Ref) (fuel : Nat), 1 ≤ fuel →
      pathLoop h fuel (some s) acc = some ([s] ++ acc) := by
    intro acc fuel hfuel
    obtain ⟨n, rfl⟩ : ∃ n, fuel = n + 1 := ⟨fuel - 1, by omega⟩
    rw [pathLoop, inv.start.2]
    cases n <;> rfl
  have hroute : IsRoute h₀ grid s s [s] := by
    refine ⟨rfl, rfl, ?_, List.chain'_singleton s⟩
    intro c hc
    rw [List.mem_singleton.mp hc]
    exact ⟨hs, hsw⟩
  intro d
  induction d with
  | zero =>
    intro r acc fuel hr hd hfuel
    by_cases hrs : r = s
    · subst hrs
      exact ⟨[r], hstart acc fuel hfuel, rfl, hroute⟩
    · have hne : (h r).distance ≠ none := by rw [hd]; simp
      obtain ⟨p0, hp0⟩ := Option.ne_none_iff_exists'.mp (inv.reached r hr hrs hne)
      obtain ⟨_, _, _, d0, _, e2⟩ := inv.pred r hr p0 hp0
      rw [hd] at e2
      have := Option.some.inj e2
      omega
  | succ d ih =>
    intro r acc fuel hr hd hfuel
    have hrs : r ≠ s := by
      intro e
      rw [e, inv.start.1] at hd
      have := Option.some.inj hd
      omega
    have hne : (h r).distance ≠ none := by rw [hd]; simp
    obtain ⟨p0, hp0⟩ := Option.ne_none_iff_exists'.mp (inv.reached r hr hrs hne)
    obtain ⟨hpE, hadj, hw, d0, e1, e2⟩ := inv.pred r hr p0 hp0
    rw [hd] at e2
    have hd0 : d0 = d := by
      have := Option.some.inj e2
      omega
    subst hd0
    have hp0in : InGrid grid p0 := inv_visited_inGrid inv p0 (inv_expanded_visited inv p0 hpE)
    obtain ⟨n, rfl⟩ : ∃ n, fuel = n + 1 := ⟨fuel - 1, by omega⟩
    obtain ⟨q, hq1, hq2, hq3⟩ := ih p0 (r :: acc) n hp0in e1 (by omega)
    refine ⟨q ++ [r], ?_, by simp [hq2], isRoute_snoc hq3 hadj hr hw⟩
    rw [pathLoop, hp0, hq1]
    simp

/-- Along any route from the start, some cell with a finite distance no larger
than its position is met: the end of the route, or a cell that has not been
expanded. -/
theorem route_lower {h₀ : Heap} {grid : Grid} {s f : Ref} {h : Heap}
    {U V E : List Ref} (inv : SearchInv h₀ grid s f h U V E) :
    ∀ (p : List Ref) (a x : Ref) (n : Nat), IsRoute h₀ grid a x p →
      (∃ y d, InGrid grid y ∧ (h y).distance = some d ∧ d ≤ n ∧ (y = a ∨ y ∉ E)) →
      ∃ y d, InGrid grid y ∧ (h y).distance = some d ∧ d + 1 ≤ n + p.length ∧
        (y = x ∨ y ∉ E) := by
  intro p
  induction p with
  | nil =>
    intro a x n hr _
    have := hr.1
    simp at this
  | cons c t ih =>
    intro a x n hr hyp
    cases t with
    | nil =>
      obtain ⟨_, hxa⟩ := isRoute_singleton hr
      obtain ⟨y, d, h1, h2, h3, h4⟩ := hyp
      refine ⟨y, d, h1, h2, by simp; omega, ?_⟩
      rw [hxa]; exact h4
    | cons b t =>
      obtain ⟨_, hadj, hb, hbw, hr'⟩ := isRoute_cons_cons hr
      obtain ⟨y, d, h1, h2, h3, h4⟩ := hyp
      have step : ∃ y d, InGrid grid y ∧ (h y).distance = some d ∧ d ≤ n + 1 ∧
          (y = b ∨ y ∉ E) := by
        by_cases hyE : y ∈ E
        · rcases h4 with e | e
          · subst e
            obtain ⟨d1, d2, e1, e2, e3⟩ := inv.relax y hyE b hb hadj hbw
            rw [h2] at e1
            have := Option.some.inj e1
            exact ⟨b, d2, hb, e2, by omega, Or.inl rfl⟩
          · exact absurd hyE e
        · exact ⟨y, d, h1, h2, by omega, Or.inr hyE⟩
      obtain ⟨y', d', g1, g2, g3, g4⟩ := ih b x (n + 1) hr' step
      refine ⟨y', d', g1, g2, ?_, g4⟩
      simp only [List.length_cons] at g3 ⊢
      omega

/-- The result of `dijkstra` in terms of the two components of the pair it
returns in the model. -/
theorem dijkstra_final {h : Heap} {grid : Grid} {s f : Ref} (hwf : WellFormed h grid)
    (hreset : IsReset h grid) (hs : InGrid grid s) (hf : InGrid grid f) :
    ∃ U V E, (dijkstra h grid s f).2 = Outcome.returned V ∧
      SearchInv h grid s f (dijkstra h grid s f).1 U V E ∧
      ((V = E ∧ ∀ r, InGrid grid r → r ∉ V → ((dijkstra h grid s f).1 r).distance = none) ∨
        V = E ++ [f]) := by
  obtain ⟨h', U, V, E, hrun, inv, hexit⟩ := dijkstra_spec hwf hreset hs hf
  rw [hrun]
  exact ⟨U, V, E, rfl, inv, hexit⟩

theorem visited_dist_lower {h₀ : Heap} {grid : Grid} {s f : Ref} {h : Heap}
    {U V E : List Ref} (inv : SearchInv h₀ grid s f h U V E) {v : Ref} {d : Nat}
    (hv : v ∈ V) (hd : (h v).distance = some d) {p : List Ref}
    (hp : IsRoute h₀ grid s v p) : d + 1 ≤ p.length := by
  have hs := (isRoute_head_mem hp).1
  obtain ⟨y, d', h1, h2, h3, h4⟩ := route_lower inv p s v 0 hp
    ⟨s, 0, hs, inv.start.1, le_refl 0, Or.inl rfl⟩
  obtain ⟨k, _, hk2, hk3⟩ := inv.level
  by_cases hyv : y = v
  · rw [hyv, hd] at h2
    have := Option.some.inj h2
    omega
  · have hyE : y ∉ E := by
      rcases h4 with e | e
      · exact absurd e hyv
      · exact e
    obtain ⟨d2, e1, e2⟩ := hk2 v hv
    rw [hd] at e1
    have := Option.some.inj e1
    have := hk3 y h1 hyE d' h2
    omega

theorem closed_reachable {h₀ : Heap} {grid : Grid} {s f : Ref} {h : Heap}
    {U V : List Ref} (inv : SearchInv h₀ grid s f h U V V)
    (hclosed : ∀ r, InGrid grid r → r ∉ V → (h r).distance = none) {r : Ref}
    {p : List Ref} (hp : IsRoute h₀ grid s r p) : r ∈ V := by
  have hs := (isRoute_head_mem hp).1
  obtain ⟨y, d', h1, h2, _, h4⟩ := route_lower inv p s r 0 hp
    ⟨s, 0, hs, inv.start.1, le_refl 0, Or.inl rfl⟩
  have hyV : y ∈ V := by
    by_contra hy
    rw [hclosed y h1 hy] at h2
    exact absurd h2 (by simp)
  rcases h4 with e | e
  · rw [← e]; exact hyV
  · exact absurd hyV e

/-- In the final state the finish cell is in the visited order exactly when a
route leads to it. -/
theorem finish_visited_iff {h₀ : Heap} {grid : Grid} {s f : Ref} {h : Heap}
    {U V E : List Ref} (inv : SearchInv h₀ grid s f h U V E) (hs : InGrid grid s)
    (hsw : (h₀ s).isWall = false)
    (hexit : (V = E ∧ ∀ r, InGrid grid r → r ∉ V → (h r).distance = none) ∨
      V = E ++ [f]) : f ∈ V ↔ Reachable h₀ grid s f := by
  constructor
  · intro hfV
    obtain ⟨d, hd⟩ := inv_visited_dist inv f hfV
    obtain ⟨p, _, _, hp⟩ := pathLoop_spec inv hs hsw d f [] (d + 1)
      (inv_visited_inGrid inv f hfV) hd (le_refl _)
    exact ⟨p, hp⟩
  · rintro ⟨p, hp⟩
    rcases hexit with ⟨e, hclosed⟩ | e
    · subst e
      exact closed_reachable inv hclosed hp
    · rw [e]; simp

/-- A route cannot cross a row all of whose cells are blocked. -/
theorem route_stays_above {h : Heap} {grid : Grid} (w : Nat)
    (hrow : ∀ c, InGrid grid c → (h c).row = w → (h c).isWall = true) :
    ∀ (p : List Ref) (a x : Ref), IsRoute h grid a x p →
      ((h a).row < w → (h x).row < w) ∧ (w < (h a).row → w < (h x).row) := by
  intro p
  induction p with
  | nil =>
    intro a x hr
    have := hr.1
    simp at this
  | cons c t ih =>
    intro a x hr
    cases t with
    | nil =>
      obtain ⟨_, hxa⟩ := isRoute_singleton hr
      rw [hxa]
      exact ⟨id, id⟩
    | cons b t =>
      obtain ⟨_, hadj, hb, hbw, hr'⟩ := isRoute_cons_cons hr
      have hbrow : (h b).row ≠ w := by
        intro e
        rw [hrow b hb e] at hbw
        exact absurd hbw (by simp)
      obtain ⟨i1, i2⟩ := ih b x hr'
      unfold Adjacent at hadj
      constructor
      · intro ha
        exact i1 (by omega)
      · intro ha
        exact i2 (by omega)

/-- With enough iterations `getNodesInShortestPathOrder` returns, for a finish
cell of finite distance `d`, a route of `d + 1` cells from the start. -/
theorem finish_path {h₀ : Heap} {grid : Grid} {s f : Ref} {h : Heap}
    {U V E : List Ref} (inv : SearchInv h₀ grid s f h U V E) (hs : InGrid grid s)
    (hsw : (h₀ s).isWall = false) (hf : InGrid grid f) {d : Nat}
    (hd : (h f).distance = some d) :
    ∀ fuel, d + 1 ≤ fuel → ∃ p, getNodesInShortestPathOrder fuel h f = some p ∧
      p.length = d + 1 ∧ IsRoute h₀ grid s f p := by
  intro fuel hfuel
  obtain ⟨p, h1, h2, h3⟩ := pathLoop_spec inv hs hsw d f [] fuel hf hd hfuel
  refine ⟨p, ?_, h2, h3⟩
  unfold getNodesInShortestPathOrder
  rw [h1, List.append_nil]

/-- A cell whose distance is still `Infinity` has no predecessor, so the walk
back from it stops at once. -/
theorem path_of_unreached {h₀ : Heap} {grid : Grid} {s f : Ref} {h : Heap}
    {U V E : List Ref} (inv : SearchInv h₀ grid s f h U V E) {x : Ref}
    (hx : InGrid grid x) (hd : (h x).distance = none) :
    ∀ fuel, 1 ≤ fuel → getNodesInShortestPathOrder fuel h x = some [x] := by
  intro fuel hfuel
  have hprev : (h x).previousNode = none := by
    rcases hp : (h x).previousNode with _ | p
    · rfl
    · obtain ⟨_, _, _, d, _, e⟩ := inv.pred x hx p hp
      rw [hd] at e
      exact absurd e (by simp)
  obtain ⟨n, rfl⟩ : ∃ n, fuel = n + 1 := ⟨fuel - 1, by omega⟩
  unfold getNodesInShortestPathOrder
  rw [pathLoop, hprev]
  cases n <;> rfl

theorem isRoute_self {h : Heap} {grid : Grid} {s : Ref} (hs : InGrid grid s)
    (hsw : (h s).isWall = false) : IsRoute h grid s s [s] := by
  refine ⟨rfl, rfl, ?_, List.chain'_singleton s⟩
  intro c hc
  rw [List.mem_singleton.mp hc]
  exact ⟨hs, hsw⟩

theorem isRoute_cons {h : Heap} {grid : Grid} {a b x : Ref} {p : List Ref}
    (ha : InGrid grid a) (haw : (h a).isWall = false) (hadj : Adjacent h a b)
    (hp : IsRoute h grid b x p) : IsRoute h grid a x (a :: p) := by
  obtain ⟨h1, h2, h3, h4⟩ := hp
  cases p with
  | nil => simp at h1
  | cons c t =>
    have hcb : c = b := by simpa using h1
    subst hcb
    refine ⟨rfl, ?_, ?_, ?_⟩
    · rw [List.getLast?_cons_cons]; exact h2
    · intro y hy
      rcases List.mem_cons.mp hy with e | e
      · rw [e]; exact ⟨ha, haw⟩
      · exact h3 y e
    · rw [List.chain'_cons]
      exact ⟨hadj, h4⟩

/-- Every step of a route changes the Manhattan distance to the goal by at most
one, so a route has at least Manhattan distance + 1 cells. -/
theorem route_manhattan_le {h : Heap} {grid : Grid} :
    ∀ (p : List Ref) (a b : Ref), IsRoute h grid a b p → manhattan h a b + 1 ≤ p.length := by
  intro p
  induction p with
  | nil =>
    intro a b hr
    have := hr.1
    simp at this
  | cons c t ih =>
    intro a b hr
    cases t with
    | nil =>
      obtain ⟨_, hba⟩ := isRoute_singleton hr
      subst hba
      simp [manhattan]
    | cons c' t =>
      obtain ⟨_, hadj, _, _, hr'⟩ := isRoute_cons_cons hr
      have := ih c' b hr'
      simp only [List.length_cons] at this ⊢
      unfold manhattan at this ⊢
      unfold Adjacent at hadj
      omega

/-- In a well-formed grid without walls a route of Manhattan distance + 1 cells
joins any two cells. -/
theorem route_exists_of_no_walls {h : Heap} {grid : Grid} (hwf : WellFormed h grid)
    (hnw : ∀ c, InGrid grid c → (h c).isWall = false) :
    ∀ (n : Nat) (a b : Ref), InGrid grid a → InGrid grid b → manhattan h a b = n →
      ∃ p, IsRoute h grid a b p ∧ p.length = n + 1 := by
  intro n
  induction n with
  | zero =>
    intro a b ha hb hm
    have hab : a = b := by
      apply wf_eq_of_coords hwf ha hb
      · unfold manhattan at hm; omega
      · unfold manhattan at hm; omega
    subst hab
    exact ⟨[a], isRoute_self ha (hnw a ha), rfl⟩
  | succ n ih =>
    intro a b ha hb hm
    obtain ⟨hai, haj⟩ := wf_bounds hwf (wf_gridAt_self hwf ha)
    obtain ⟨hbi, hbj⟩ := wf_bounds hwf (wf_gridAt_self hwf hb)
    have hstep : ∃ a', InGrid grid a' ∧ Adjacent h a a' ∧ manhattan h a' b = n := by
      unfold manhattan at hm
      by_cases c1 : (h a).row < (h b).row
      · obtain ⟨a', hg⟩ := wf_gridAt_some hwf (i := (h a).row + 1) (j := (h a).col)
          (by omega) haj
        obtain ⟨e1, e2⟩ := wf_cell hwf hg
        refine ⟨a', inGrid_iff_gridAt.mpr ⟨_, _, hg⟩, ?_, ?_⟩
        · unfold Adjacent; omega
        · unfold manhattan; omega
      · by_cases c2 : (h b).row < (h a).row
        · obtain ⟨a', hg⟩ := wf_gridAt_some hwf (i := (h a).row - 1) (j := (h a).col)
            (by omega) haj
          obtain ⟨e1, e2⟩ := wf_cell hwf hg
          refine ⟨a', inGrid_iff_gridAt.mpr ⟨_, _, hg⟩, ?_, ?_⟩
          · unfold Adjacent; omega
          · unfold manhattan; omega
        · by_cases c3 : (h a).col < (h b).col
          · obtain ⟨a', hg⟩ := wf_gridAt_some hwf (i := (h a).row) (j := (h a).col + 1)
              hai (by omega)
            obtain ⟨e1, e2⟩ := wf_cell hwf hg
            refine ⟨a', inGrid_iff_gridAt.mpr ⟨_, _, hg⟩, ?_, ?_⟩
            · unfold Adjacent; omega
            · unfold manhattan; omega
          · obtain ⟨a', hg⟩ := wf_gridAt_some hwf (i := (h a).row) (j := (h a).col - 1)
              hai (by omega)
            obtain ⟨e1, e2⟩ := wf_cell hwf hg
            refine ⟨a', inGrid_iff_gridAt.mpr ⟨_, _, hg⟩, ?_, ?_⟩
            · unfold Adjacent; omega
            · unfold manhattan; omega
    obtain ⟨a', ha', hadj, hm'⟩ := hstep
    obtain ⟨p, hp, hlen⟩ := ih a' b ha' hb hm'
    exact ⟨a :: p, isRoute_cons ha (hnw a ha) hadj hp, by simp [hlen]⟩

/-- The expanded cells are the visited order with the finish cell left out. -/
theorem expanded_eq_filter {h₀ : Heap} {grid : Grid} {s f : Ref} {h : Heap}
    {U V E : List Ref} (inv : SearchInv h₀ grid s f h U V E)
    (hexit : (V = E ∧ ∀ r, InGrid grid r → r ∉ V → (h r).distance = none) ∨
      V = E ++ [f]) : V.filter (fun u => decide (u ≠ f)) = E := by
  have hE : E.filter (fun u => decide (u ≠ f)) = E := by
    rw [List.filter_eq_self]
    intro a ha
    have : a ≠ f := fun e => inv.finish (e ▸ ha)
    simpa using this
  rcases hexit with ⟨e, _⟩ | e
  · rw [e]; exact hE
  · rw [e, List.filter_append, hE]
    simp

/-! ## The claims -/

/-- C1: on a well-formed reset grid with unblocked start and finish cells,
`dijkstra` returns a visited order, and every cell in it ends with a finite
distance that is the number of steps of a shortest route from the start to
that cell: a route with that many steps exists and no route has fewer. -/
theorem dijkstra_visited_distance_is_shortest (h : Heap) (grid : Grid) (s f : Ref)
    (hwf : WellFormed h grid) (hreset : IsReset h grid) (hs : InGrid grid s)
    (hf : InGrid grid f) (hsw : (h s).isWall = false) (_hfw : (h f).isWall = false) :
    ∃ visited, (dijkstra h grid s f).2 = Outcome.returned visited ∧
      ∀ v ∈ visited, ∃ d, ((dijkstra h grid s f).1 v).distance = some d ∧
        (∃ p, IsRoute h grid s v p ∧ p.length = d + 1) ∧
        ∀ p, IsRoute h grid s v p → d + 1 ≤ p.length := by
  obtain ⟨U, V, E, hrun, inv, _⟩ := dijkstra_final hwf hreset hs hf
  refine ⟨V, hrun, ?_⟩
  intro v hv
  obtain ⟨d, hd⟩ := inv_visited_dist inv v hv
  obtain ⟨p, _, hlen, hp⟩ := pathLoop_spec inv hs hsw d v [] (d + 1)
    (inv_visited_inGrid inv v hv) hd (le_refl _)
  exact ⟨d, hd, ⟨p, hp, hlen⟩, fun q hq => visited_dist_lower inv hv hd hq⟩

theorem dijkstra_visited_distance_is_shortest_witness :
    WellFormed (freshHeap 3 [4]) (freshGrid 3 3) ∧ IsReset (freshHeap 3 [4]) (freshGrid 3 3) ∧
    InGrid (freshGrid 3 3) 0 ∧ InGrid (freshGrid 3 3) 8 ∧
    (freshHeap 3 [4] 0).isWall = false ∧ (freshHeap 3 [4] 8).isWall = false ∧
    ∃ visited, (dijkstra (freshHeap 3 [4]) (freshGrid 3 3) 0 8).2 = Outcome.returned visited ∧
      ∀ v ∈ visited, ∃ d,
        ((dijkstra (freshHeap 3 [4]) (freshGrid 3 3) 0 8).1 v).distance = some d ∧
        (∃ p, IsRoute (freshHeap 3 [4]) (freshGrid 3 3) 0 v p ∧ p.length = d + 1) ∧
        ∀ p, IsRoute (freshHeap 3 [4]) (freshGrid 3 3) 0 v p → d + 1 ≤ p.length :=
  ⟨by decide, by decide, by decide, by decide, by decide, by decide,
    dijkstra_visited_distance_is_shortest (freshHeap 3 [4]) (freshGrid 3 3) 0 8
      (by decide) (by decide) (by decide) (by decide) (by decide) (by decide)⟩

/-- C2: when the finish cell is reachable, `getNodesInShortestPathOrder(finish)`
called after `dijkstra` returns (once it is given enough iterations) a route
from the start to the finish: its first cell is the start, its last cell is the
finish, and it has no more cells than any route from start to finish. -/
theorem shortest_path_is_shortest_route (h : Heap) (grid : Grid) (s f : Ref)
    (hwf : WellFormed h grid) (hreset : IsReset h grid) (hs : InGrid grid s)
    (hf : InGrid grid f) (hsw : (h s).isWall = false) (_hfw : (h f).isWall = false)
    (hreach : Reachable h grid s f) :
    ∃ N, ∀ fuel, N ≤ fuel → ∃ p,
      getNodesInShortestPathOrder fuel (dijkstra h grid s f).1 f = some p ∧
      p.head? = some s ∧ p.getLast? = some f ∧ IsRoute h grid s f p ∧
      ∀ q, IsRoute h grid s f q → p.length ≤ q.length := by
  obtain ⟨U, V, E, _, inv, hexit⟩ := dijkstra_final hwf hreset hs hf
  have hfV : f ∈ V := (finish_visited_iff inv hs hsw hexit).mpr hreach
  obtain ⟨d, hd⟩ := inv_visited_dist inv f hfV
  refine ⟨d + 1, ?_⟩
  intro fuel hfuel
  obtain ⟨p, h1, h2, h3⟩ := finish_path inv hs hsw hf hd fuel hfuel
  refine ⟨p, h1, h3.1, h3.2.1, h3, ?_⟩
  intro q hq
  have := visited_dist_lower inv hfV hd hq
  omega

theorem shortest_path_is_shortest_route_witness :
    WellFormed (freshHeap 3 [4]) (freshGrid 3 3) ∧ IsReset (freshHeap 3 [4]) (freshGrid 3 3) ∧
    InGrid (freshGrid 3 3) 0 ∧ InGrid (freshGrid 3 3) 8 ∧
    (freshHeap 3 [4] 0).isWall = false ∧ (freshHeap 3 [4] 8).isWall = false ∧
    Reachable (freshHeap 3 [4]) (freshGrid 3 3) 0 8 ∧
    ∃ N, ∀ fuel, N ≤ fuel → ∃ p,
      getNodesInShortestPathOrder fuel (dijkstra (freshHeap 3 [4]) (freshGrid 3 3) 0 8).1 8
        = some p ∧
      p.head? = some 0 ∧ p.getLast? = some 8 ∧
      IsRoute (freshHeap 3 [4]) (freshGrid 3 3) 0 8 p ∧
      ∀ q, IsRoute (freshHeap 3 [4]) (freshGrid 3 3) 0 8 q → p.length ≤ q.length :=
  have hreach : Reachable (freshHeap 3 [4]) (freshGrid 3 3) 0 8 :=
    ⟨[0, 1, 2, 5, 8], by decide, by decide, by decide, by
      simp only [List.chain'_cons, List.chain'_singleton, and_true]
      decide⟩
  ⟨by decide, by decide, by decide, by decide, by decide, by decide, hreach,
    shortest_path_is_shortest_route (freshHeap 3 [4]) (freshGrid 3 3) 0 8
      (by decide) (by decide) (by decide) (by decide) (by decide) (by decide) hreach⟩

/-- C3: the finish cell is in the visited order returned by `dijkstra` exactly
when a route leads from the start to it; in particular, when every cell of some
row strictly between the start row and the finish row is blocked, the finish
cell is not in the visited order. -/
theorem finish_visited_iff_reachable (h : Heap) (grid : Grid) (s f : Ref)
    (hwf : WellFormed h grid) (hreset : IsReset h grid) (hs : InGrid grid s)
    (hf : InGrid grid f) (hsw : (h s).isWall = false) (_hfw : (h f).isWall = false) :
    ∃ visited, (dijkstra h grid s f).2 = Outcome.returned visited ∧
      (f ∈ visited ↔ Reachable h grid s f) ∧
      ∀ w, (∀ c, InGrid grid c → (h c).row = w → (h c).isWall = true) →
        (((h s).row < w ∧ w < (h f).row) ∨ ((h f).row < w ∧ w < (h s).row)) →
        f ∉ visited := by
  obtain ⟨U, V, E, hrun, inv, hexit⟩ := dijkstra_final hwf hreset hs hf
  have hiff := finish_visited_iff inv hs hsw hexit
  refine ⟨V, hrun, hiff, ?_⟩
  intro w hrow hbetween hfV
  obtain ⟨p, hp⟩ := hiff.mp hfV
  obtain ⟨i1, i2⟩ := route_stays_above w hrow p s f hp
  rcases hbetween with ⟨a, b⟩ | ⟨a, b⟩
  · have := i1 a
    omega
  · have := i2 b
    omega

theorem finish_visited_iff_reachable_witness :
    WellFormed (freshHeap 2 [2, 3]) (freshGrid 3 2) ∧
    IsReset (freshHeap 2 [2, 3]) (freshGrid 3 2) ∧
    InGrid (freshGrid 3 2) 0 ∧ InGrid (freshGrid 3 2) 4 ∧
    (freshHeap 2 [2, 3] 0).isWall = false ∧ (freshHeap 2 [2, 3] 4).isWall = false ∧
    ∃ visited, (dijkstra (freshHeap 2 [2, 3]) (freshGrid 3 2) 0 4).2
        = Outcome.returned visited ∧
      (4 ∈ visited ↔ Reachable (freshHeap 2 [2, 3]) (freshGrid 3 2) 0 4) ∧
      ∀ w, (∀ c, InGrid (freshGrid 3 2) c → (freshHeap 2 [2, 3] c).row = w →
          (freshHeap 2 [2, 3] c).isWall = true) →
        (((freshHeap 2 [2, 3] 0).row < w ∧ w < (freshHeap 2 [2, 3] 4).row) ∨
          ((freshHeap 2 [2, 3] 4).row < w ∧ w < (freshHeap 2 [2, 3] 0).row)) →
        4 ∉ visited :=
  ⟨by decide, by decide, by decide, by decide, by decide, by decide,
    finish_visited_iff_reachable (freshHeap 2 [2, 3]) (freshGrid 3 2) 0 4
      (by decide) (by decide) (by decide) (by decide) (by decide) (by decide)⟩

/-- C4: when the finish cell is reachable, every two consecutive cells of the
sequence returned by `getNodesInShortestPathOrder(finish)` after the search are
one orthogonal step apart: they differ by 1 in exactly one of row and column
and agree in the other. -/
theorem shortest_path_steps_orthogonal (h : Heap) (grid : Grid) (s f : Ref)
    (hwf : WellFormed h grid) (hreset : IsReset h grid) (hs : InGrid grid s)
    (hf : InGrid grid f) (hsw : (h s).isWall = false) (_hfw : (h f).isWall = false)
    (hreach : Reachable h grid s f) :
    ∃ N, ∀ fuel, N ≤ fuel → ∃ p,
      getNodesInShortestPathOrder fuel (dijkstra h grid s f).1 f = some p ∧
      p.Chain' (fun a b =>
        ((h a).row = (h b).row ∧ ((h a).col + 1 = (h b).col ∨ (h b).col + 1 = (h a).col)) ∨
        ((h a).col = (h b).col ∧ ((h a).row + 1 = (h b).row ∨ (h b).row + 1 = (h a).row))) := by
  obtain ⟨U, V, E, _, inv, hexit⟩ := dijkstra_final hwf hreset hs hf
  have hfV : f ∈ V := (finish_visited_iff inv hs hsw hexit).mpr hreach
  obtain ⟨d, hd⟩ := inv_visited_dist inv f hfV
  refine ⟨d + 1, ?_⟩
  intro fuel hfuel
  obtain ⟨p, h1, _, h3⟩ := finish_path inv hs hsw hf hd fuel hfuel
  exact ⟨p, h1, h3.2.2.2⟩

theorem shortest_path_steps_orthogonal_witness :
    WellFormed (freshHeap 2 []) (freshGrid 2 2) ∧ IsReset (freshHeap 2 []) (freshGrid 2 2) ∧
    InGrid (freshGrid 2 2) 0 ∧ InGrid (freshGrid 2 2) 3 ∧
    (freshHeap 2 [] 0).isWall = false ∧ (freshHeap 2 [] 3).isWall = false ∧
    Reachable (freshHeap 2 []) (freshGrid 2 2) 0 3 ∧
    ∃ N, ∀ fuel, N ≤ fuel → ∃ p,
      getNodesInShortestPathOrder fuel (dijkstra (freshHeap 2 []) (freshGrid 2 2) 0 3).1 3
        = some p ∧
      p.Chain' (fun a b =>
        ((freshHeap 2 [] a).row = (freshHeap 2 [] b).row ∧
          ((freshHeap 2 [] a).col + 1 = (freshHeap 2 [] b).col ∨
            (freshHeap 2 [] b).col + 1 = (freshHeap 2 [] a).col)) ∨
        ((freshHeap 2 [] a).col = (freshHeap 2 [] b).col ∧
          ((freshHeap 2 [] a).row + 1 = (freshHeap 2 [] b).row ∨
            (freshHeap 2 [] b).row + 1 = (freshHeap 2 [] a).row))) :=
  have hreach : Reachable (freshHeap 2 []) (freshGrid 2 2) 0 3 :=
    ⟨[0, 1, 3], by decide, by decide, by decide, by
      simp only [List.chain'_cons, List.chain'_singleton, and_true]
      decide⟩
  ⟨by decide, by decide, by decide, by decide, by decide, by decide, hreach,
    shortest_path_steps_orthogonal (freshHeap 2 []) (freshGrid 2 2) 0 3
      (by decide) (by decide) (by decide) (by decide) (by decide) (by decide) hreach⟩

/-- C5: on a well-formed reset grid without blocked cells, the path returned by
`getNodesInShortestPathOrder(finish)` after `dijkstra` has exactly
`|start.row - finish.row| + |start.col - finish.col| + 1` cells, that is
Manhattan distance many steps. -/
theorem shortest_path_length_manhattan (h : Heap) (grid : Grid) (s f : Ref)
    (hwf : WellFormed h grid) (hreset : IsReset h grid) (hs : InGrid grid s)
    (hf : InGrid grid f) (hnw : ∀ row ∈ grid, ∀ c ∈ row, (h c).isWall = false) :
    ∃ N, ∀ fuel, N ≤ fuel → ∃ p,
      getNodesInShortestPathOrder fuel (dijkstra h grid s f).1 f = some p ∧
      p.length = manhattan h s f + 1 := by
  have hnw' : ∀ c, InGrid grid c → (h c).isWall = false := by
    rintro c ⟨row, h1, h2⟩
    exact hnw row h1 c h2
  have hsw := hnw' s hs
  obtain ⟨q, hq, hqlen⟩ := route_exists_of_no_walls hwf hnw' (manhattan h s f) s f hs hf rfl
  obtain ⟨U, V, E, _, inv, hexit⟩ := dijkstra_final hwf hreset hs hf
  have hfV : f ∈ V := (finish_visited_iff inv hs hsw hexit).mpr ⟨q, hq⟩
  obtain ⟨d, hd⟩ := inv_visited_dist inv f hfV
  refine ⟨d + 1, ?_⟩
  intro fuel hfuel
  obtain ⟨p, h1, h2, h3⟩ := finish_path inv hs hsw hf hd fuel hfuel
  refine ⟨p, h1, ?_⟩
  have lo := route_manhattan_le p s f h3
  have hi := visited_dist_lower inv hfV hd hq
  omega

theorem shortest_path_length_manhattan_witness :
    WellFormed (freshHeap 5 []) (freshGrid 5 5) ∧ IsReset (freshHeap 5 []) (freshGrid 5 5) ∧
    InGrid (freshGrid 5 5) 0 ∧ InGrid (freshGrid 5 5) 24 ∧
    (∀ row ∈ freshGrid 5 5, ∀ c ∈ row, (freshHeap 5 [] c).isWall = false) ∧
    manhattan (freshHeap 5 []) 0 24 = 8 ∧
    ∃ N, ∀ fuel, N ≤ fuel → ∃ p,
      getNodesInShortestPathOrder fuel (dijkstra (freshHeap 5 []) (freshGrid 5 5) 0 24).1 24
        = some p ∧
      p.length = manhattan (freshHeap 5 []) 0 24 + 1 :=
  ⟨by decide, by decide, by decide, by decide, by decide, by decide,
    shortest_path_length_manhattan (freshHeap 5 []) (freshGrid 5 5) 0 24
      (by decide) (by decide) (by decide) (by decide) (by decide)⟩

/-- C6, the claim as stated fails: on the one-row grid of two cells with the
start cell blocked, the search still visits the finish cell. -/
theorem blocked_start_still_reaches_finish :
    ¬ (∀ (h : Heap) (grid : Grid) (s f : Ref), WellFormed h grid → IsReset h grid →
        InGrid grid s → InGrid grid f → ((h s).isWall = true ∨ (h f).isWall = true) →
        ∀ visited, (dijkstra h grid s f).2 = Outcome.returned visited → f ∉ visited) := by
  intro H
  exact H (freshHeap 2 [0]) (freshGrid 1 2) 0 1 (by decide) (by decide) (by decide)
    (by decide) (by decide) [0, 1] (by decide) (by decide)

/-- C6, amended: if the finish cell is blocked and is not the start cell, the
visited order returned by `dijkstra` does not contain the finish cell. -/
theorem blocked_finish_not_visited (h : Heap) (grid : Grid) (s f : Ref)
    (hwf : WellFormed h grid) (hreset : IsReset h grid) (hs : InGrid grid s)
    (hf : InGrid grid f) (hfw : (h f).isWall = true) (hne : f ≠ s) :
    ∃ visited, (dijkstra h grid s f).2 = Outcome.returned visited ∧ f ∉ visited := by
  obtain ⟨U, V, E, hrun, inv, _⟩ := dijkstra_final hwf hreset hs hf
  refine ⟨V, hrun, ?_⟩
  intro hfV
  obtain ⟨d, hd⟩ := inv_visited_dist inv f hfV
  have hne' : ((dijkstra h grid s f).1 f).distance ≠ none := by rw [hd]; simp
  obtain ⟨p, hp⟩ := Option.ne_none_iff_exists'.mp (inv.reached f hf hne hne')
  obtain ⟨_, _, hw, _⟩ := inv.pred f hf p hp
  rw [hfw] at hw
  exact absurd hw (by simp)

theorem blocked_finish_not_visited_witness :
    WellFormed (freshHeap 2 [1]) (freshGrid 1 2) ∧ IsReset (freshHeap 2 [1]) (freshGrid 1 2) ∧
    InGrid (freshGrid 1 2) 0 ∧ InGrid (freshGrid 1 2) 1 ∧
    (freshHeap 2 [1] 1).isWall = true ∧ (1 : Ref) ≠ 0 ∧
    ∃ visited, (dijkstra (freshHeap 2 [1]) (freshGrid 1 2) 0 1).2 = Outcome.returned visited ∧
      1 ∉ visited :=
  ⟨by decide, by decide, by decide, by decide, by decide, by decide,
    blocked_finish_not_visited (freshHeap 2 [1]) (freshGrid 1 2) 0 1
      (by decide) (by decide) (by decide) (by decide) (by decide) (by decide)⟩

/-- C7, the claim as stated fails: on the 2x2 grid without walls, searched from
(0,0) to (1,1), the finish cell is first reached from (0,1) and reached again
from (1,0); its predecessor ends as (1,0), not the earliest adjacent cell of the
visited order. -/
theorem predecessor_not_first_reached :
    ¬ (∀ (h : Heap) (grid : Grid) (s f : Ref), WellFormed h grid → IsReset h grid →
        InGrid grid s → InGrid grid f → (h s).isWall = false → (h f).isWall = false →
        ∀ visited, (dijkstra h grid s f).2 = Outcome.returned visited →
        ∀ x, InGrid grid x → ∀ p, ((dijkstra h grid s f).1 x).previousNode = some p →
          visited.find? (fun u => decide (Adjacent h u x)) = some p) := by
  intro H
  have key := H (freshHeap 2 []) (freshGrid 2 2) 0 3 (by decide) (by decide) (by decide)
    (by decide) (by decide) (by decide) [0, 1, 2, 3] (by decide) 3 (by decide) 2 (by decide)
  exact absurd key (by decide)

/-- C7, amended: after the search the predecessor of every cell of the grid is
the cell from which it was last reached: the latest cell of the visited order,
the finish cell left out (it is never expanded), that is orthogonally adjacent
to it and, when the cell is itself visited, comes before it; a cell has no
predecessor exactly when there is no such cell or it is blocked. -/
theorem predecessor_is_last_reached (h : Heap) (grid : Grid) (s f : Ref)
    (hwf : WellFormed h grid) (hreset : IsReset h grid) (hs : InGrid grid s)
    (hf : InGrid grid f) (_hsw : (h s).isWall = false) (_hfw : (h f).isWall = false) :
    ∃ visited, (dijkstra h grid s f).2 = Outcome.returned visited ∧
      ∀ x, InGrid grid x →
        ((dijkstra h grid s f).1 x).previousNode
          = lastReachedFrom h (visited.filter (fun u => decide (u ≠ f))) x := by
  obtain ⟨U, V, E, hrun, inv, hexit⟩ := dijkstra_final hwf hreset hs hf
  refine ⟨V, hrun, ?_⟩
  intro x hx
  rw [expanded_eq_filter inv hexit]
  exact inv.last x hx

theorem predecessor_is_last_reached_witness :
    WellFormed (freshHeap 2 []) (freshGrid 2 2) ∧ IsReset (freshHeap 2 []) (freshGrid 2 2) ∧
    InGrid (freshGrid 2 2) 0 ∧ InGrid (freshGrid 2 2) 3 ∧
    (freshHeap 2 [] 0).isWall = false ∧ (freshHeap 2 [] 3).isWall = false ∧
    ∃ visited, (dijkstra (freshHeap 2 []) (freshGrid 2 2) 0 3).2 = Outcome.returned visited ∧
      ∀ x, InGrid (freshGrid 2 2) x →
        ((dijkstra (freshHeap 2 []) (freshGrid 2 2) 0 3).1 x).previousNode
          = lastReachedFrom (freshHeap 2 []) (visited.filter (fun u => decide (u ≠ 3))) x :=
  ⟨by decide, by decide, by decide, by decide, by decide, by decide,
    predecessor_is_last_reached (freshHeap 2 []) (freshGrid 2 2) 0 3
      (by decide) (by decide) (by decide) (by decide) (by decide) (by decide)⟩

/-- C8: if no route leads from the start to the finish, the sequence returned by
`getNodesInShortestPathOrder(finish)` after `dijkstra` is the finish cell alone,
and its first element is not the start cell. -/
theorem unreachable_path_not_from_start (h : Heap) (grid : Grid) (s f : Ref)
    (hwf : WellFormed h grid) (hreset : IsReset h grid) (hs : InGrid grid s)
    (hf : InGrid grid f) (hsw : (h s).isWall = false) (_hfw : (h f).isWall = false)
    (hun : ¬ Reachable h grid s f) :
    ∀ fuel, 1 ≤ fuel → ∃ p,
      getNodesInShortestPathOrder fuel (dijkstra h grid s f).1 f = some p ∧
      p = [f] ∧ p.head? ≠ some s := by
  obtain ⟨U, V, E, _, inv, hexit⟩ := dijkstra_final hwf hreset hs hf
  have hfV : f ∉ V := fun hm => hun ((finish_visited_iff inv hs hsw hexit).mp hm)
  have hd : ((dijkstra h grid s f).1 f).distance = none := by
    rcases hexit with ⟨_, hclosed⟩ | e
    · exact hclosed f hf hfV
    · exact absurd (by rw [e]; simp) hfV
  have hfs : f ≠ s := by
    intro e
    exact hun ⟨[s], by rw [e]; exact isRoute_self hs hsw⟩
  intro fuel hfuel
  refine ⟨[f], path_of_unreached inv hf hd fuel hfuel, rfl, ?_⟩
  intro e
  exact hfs (by simpa using e)

theorem unreachable_path_not_from_start_witness :
    WellFormed (freshHeap 2 [2, 3]) (freshGrid 3 2) ∧
    IsReset (freshHeap 2 [2, 3]) (freshGrid 3 2) ∧
    InGrid (freshGrid 3 2) 0 ∧ InGrid (freshGrid 3 2) 4 ∧
    (freshHeap 2 [2, 3] 0).isWall = false ∧ (freshHeap 2 [2, 3] 4).isWall = false ∧
    ¬ Reachable (freshHeap 2 [2, 3]) (freshGrid 3 2) 0 4 ∧
    ∀ fuel, 1 ≤ fuel → ∃ p,
      getNodesInShortestPathOrder fuel
        (dijkstra (freshHeap 2 [2, 3]) (freshGrid 3 2) 0 4).1 4 = some p ∧
      p = [4] ∧ p.head? ≠ some 0 :=
  have hun : ¬ Reachable (freshHeap 2 [2, 3]) (freshGrid 3 2) 0 4 := by
    rintro ⟨p, hp⟩
    have hrow : ∀ c, InGrid (freshGrid 3 2) c → (freshHeap 2 [2, 3] c).row = 1 →
        (freshHeap 2 [2, 3] c).isWall = true := by
      rintro c ⟨row, h1, h2⟩
      revert c
      revert row
      decide
    have := (route_stays_above 1 hrow p 0 4 hp).1 (by decide)
    exact absurd this (by decide)
  ⟨by decide, by decide, by decide, by decide, by decide, by decide, hun,
    unreachable_path_not_from_start (freshHeap 2 [2, 3]) (freshGrid 3 2) 0 4
      (by decide) (by decide) (by decide) (by decide) (by decide) (by decide) hun⟩

/-- C9: if no route leads from the start to the finish, the cells of the visited
order returned by `dijkstra` are exactly the cells that some route from the
start leads to. -/
theorem unreachable_visited_eq_reachable (h : Heap) (grid : Grid) (s f : Ref)
    (hwf : WellFormed h grid) (hreset : IsReset h grid) (hs : InGrid grid s)
    (hf : InGrid grid f) (hsw : (h s).isWall = false) (_hfw : (h f).isWall = false)
    (hun : ¬ Reachable h grid s f) :
    ∃ visited, (dijkstra h grid s f).2 = Outcome.returned visited ∧
      ∀ r, r ∈ visited ↔ Reachable h grid s r := by
  obtain ⟨U, V, E, hrun, inv, hexit⟩ := dijkstra_final hwf hreset hs hf
  have hfV : f ∉ V := fun hm => hun ((finish_visited_iff inv hs hsw hexit).mp hm)
  refine ⟨V, hrun, ?_⟩
  intro r
  constructor
  · intro hr
    obtain ⟨d, hd⟩ := inv_visited_dist inv r hr
    obtain ⟨p, _, _, hp⟩ := pathLoop_spec inv hs hsw d r [] (d + 1)
      (inv_visited_inGrid inv r hr) hd (le_refl _)
    exact ⟨p, hp⟩
  · rintro ⟨p, hp⟩
    rcases hexit with ⟨e, hclosed⟩ | e
    · subst e
      exact closed_reachable inv hclosed hp
    · exact absurd (by rw [e]; simp) hfV

theorem unreachable_visited_eq_reachable_witness :
    WellFormed (freshHeap 2 [2, 3]) (freshGrid 3 2) ∧
    IsReset (freshHeap 2 [2, 3]) (freshGrid 3 2) ∧
    InGrid (freshGrid 3 2) 0 ∧ InGrid (freshGrid 3 2) 5 ∧
    (freshHeap 2 [2, 3] 0).isWall = false ∧ (freshHeap 2 [2, 3] 5).isWall = false ∧
    ¬ Reachable (freshHeap 2 [2, 3]) (freshGrid 3 2) 0 5 ∧
    ∃ visited, (dijkstra (freshHeap 2 [2, 3]) (freshGrid 3 2) 0 5).2
        = Outcome.returned visited ∧
      ∀ r, r ∈ visited ↔ Reachable (freshHeap 2 [2, 3]) (freshGrid 3 2) 0 r :=
  have hun : ¬ Reachable (freshHeap 2 [2, 3]) (freshGrid 3 2) 0 5 := by
    rintro ⟨p, hp⟩
    have hrow : ∀ c, InGrid (freshGrid 3 2) c → (freshHeap 2 [2, 3] c).row = 1 →
        (freshHeap 2 [2, 3] c).isWall = true := by
      rintro c ⟨row, h1, h2⟩
      revert c
      revert row
      decide
    have := (route_stays_above 1 hrow p 0 5 hp).1 (by decide)
    exact absurd this (by decide)
  ⟨by decide, by decide, by decide, by decide, by decide, by decide, hun,
    unreachable_visited_eq_reachable (freshHeap 2 [2, 3]) (freshGrid 3 2) 0 5
      (by decide) (by decide) (by decide) (by decide) (by decide) (by decide) hun⟩

/-- C10: the visited order returned by `dijkstra` contains no cell twice. -/
theorem visited_order_nodup (h : Heap) (grid : Grid) (s f : Ref)
    (hwf : WellFormed h grid) (hreset : IsReset h grid) (hs : InGrid grid s)
    (hf : InGrid grid f) :
    ∃ visited, (dijkstra h grid s f).2 = Outcome.returned visited ∧ visited.Nodup := by
  obtain ⟨U, V, E, hrun, inv, _⟩ := dijkstra_final hwf hreset hs hf
  exact ⟨V, hrun, inv_visited_nodup hwf inv⟩

theorem visited_order_nodup_witness :
    WellFormed (freshHeap 3 [4]) (freshGrid 3 3) ∧ IsReset (freshHeap 3 [4]) (freshGrid 3 3) ∧
    InGrid (freshGrid 3 3) 0 ∧ InGrid (freshGrid 3 3) 8 ∧
    ∃ visited, (dijkstra (freshHeap 3 [4]) (freshGrid 3 3) 0 8).2 = Outcome.returned visited ∧
      visited.Nodup :=
  ⟨by decide, by decide, by decide, by decide,
    visited_order_nodup (freshHeap 3 [4]) (freshGrid 3 3) 0 8
      (by decide) (by decide) (by decide) (by decide)⟩

/-- The visited order of the final state starts with the start cell. -/
theorem visited_head_start {h₀ : Heap} {grid : Grid} {s f : Ref} {h : Heap}
    {U V E : List Ref} (inv : SearchInv h₀ grid s f h U V E) (hs : InGrid grid s)
    (hexit : (V = E ∧ ∀ r, InGrid grid r → r ∉ V → (h r).distance = none) ∨
      V = E ++ [f]) : V.head? = some s := by
  cases hV : V with
  | nil =>
    rcases hexit with ⟨_, hclosed⟩ | e
    · have := hclosed s hs (by rw [hV]; simp)
      rw [inv.start.1] at this
      exact absurd this (by simp)
    · rw [hV] at e
      simp at e
  | cons a t =>
    have := inv.head a (by rw [hV]; rfl)
    rw [this]
    rfl

/-- With an unblocked start no blocked cell is in the visited order. -/
theorem visited_not_wall {h₀ : Heap} {grid : Grid} {s f : Ref} {h : Heap}
    {U V E : List Ref} (inv : SearchInv h₀ grid s f h U V E)
    (hsw : (h₀ s).isWall = false) : ∀ v ∈ V, (h₀ v).isWall = false := by
  intro v hv
  by_cases hvs : v = s
  · rw [hvs]; exact hsw
  · have hin := inv_visited_inGrid inv v hv
    obtain ⟨d, hd⟩ := inv_visited_dist inv v hv
    have hne : (h v).distance ≠ none := by rw [hd]; simp
    obtain ⟨p, hp⟩ := Option.ne_none_iff_exists'.mp (inv.reached v hin hvs hne)
    exact (inv.pred v hin p hp).2.2.1

/-- C11: with unblocked start and finish cells no blocked cell is ever visited,
so the visited order returned by `dijkstra` is at most as long as the number of
non-blocked cells of the grid. -/
theorem visited_length_le_passable (h : Heap) (grid : Grid) (s f : Ref)
    (hwf : WellFormed h grid) (hreset : IsReset h grid) (hs : InGrid grid s)
    (hf : InGrid grid f) (hsw : (h s).isWall = false) (_hfw : (h f).isWall = false) :
    ∃ visited, (dijkstra h grid s f).2 = Outcome.returned visited ∧
      (∀ v ∈ visited, (h v).isWall = false) ∧
      visited.length ≤ ((getAllNodes grid).filter (fun c => !(h c).isWall)).length := by
  obtain ⟨U, V, E, hrun, inv, _⟩ := dijkstra_final hwf hreset hs hf
  have hnw := visited_not_wall inv hsw
  refine ⟨V, hrun, hnw, ?_⟩
  apply List.Subperm.length_le
  apply List.subperm_of_subset (inv_visited_nodup hwf inv)
  intro v hv
  rw [List.mem_filter]
  exact ⟨mem_getAllNodes.mpr (inv_visited_inGrid inv v hv), by simp [hnw v hv]⟩

theorem visited_length_le_passable_witness :
    WellFormed (freshHeap 3 [4]) (freshGrid 3 3) ∧ IsReset (freshHeap 3 [4]) (freshGrid 3 3) ∧
    InGrid (freshGrid 3 3) 0 ∧ InGrid (freshGrid 3 3) 8 ∧
    (freshHeap 3 [4] 0).isWall = false ∧ (freshHeap 3 [4] 8).isWall = false ∧
    ∃ visited, (dijkstra (freshHeap 3 [4]) (freshGrid 3 3) 0 8).2 = Outcome.returned visited ∧
      (∀ v ∈ visited, (freshHeap 3 [4] v).isWall = false) ∧
      visited.length ≤
        ((getAllNodes (freshGrid 3 3)).filter (fun c => !(freshHeap 3 [4] c).isWall)).length :=
  ⟨by decide, by decide, by decide, by decide, by decide, by decide,
    visited_length_le_passable (freshHeap 3 [4]) (freshGrid 3 3) 0 8
      (by decide) (by decide) (by decide) (by decide) (by decide) (by decide)⟩

/-- C12: if the finish cell occurs in the visited order returned by `dijkstra`,
it is its last element, and the finish cell is never expanded: no cell of the
grid ends with the finish cell as its predecessor. -/
theorem finish_last_and_not_expanded (h : Heap) (grid : Grid) (s f : Ref)
    (hwf : WellFormed h grid) (hreset : IsReset h grid) (hs : InGrid grid s)
    (hf : InGrid grid f) :
    ∃ visited, (dijkstra h grid s f).2 = Outcome.returned visited ∧
      (f ∈ visited → visited.getLast? = some f) ∧
      ∀ x, InGrid grid x → ((dijkstra h grid s f).1 x).previousNode ≠ some f := by
  obtain ⟨U, V, E, hrun, inv, hexit⟩ := dijkstra_final hwf hreset hs hf
  refine ⟨V, hrun, ?_, ?_⟩
  · intro hfV
    rcases hexit with ⟨e, _⟩ | e
    · rw [e] at hfV
      exact absurd hfV inv.finish
    · rw [e]
      exact List.getLast?_concat E
  · intro x hx hp
    exact inv.finish (inv.pred x hx f hp).1

theorem finish_last_and_not_expanded_witness :
    WellFormed (freshHeap 3 [4]) (freshGrid 3 3) ∧ IsReset (freshHeap 3 [4]) (freshGrid 3 3) ∧
    InGrid (freshGrid 3 3) 0 ∧ InGrid (freshGrid 3 3) 5 ∧
    ∃ visited, (dijkstra (freshHeap 3 [4]) (freshGrid 3 3) 0 5).2 = Outcome.returned visited ∧
      (5 ∈ visited → visited.getLast? = some 5) ∧
      ∀ x, InGrid (freshGrid 3 3) x →
        ((dijkstra (freshHeap 3 [4]) (freshGrid 3 3) 0 5).1 x).previousNode ≠ some 5 :=
  ⟨by decide, by decide, by decide, by decide,
    finish_last_and_not_expanded (freshHeap 3 [4]) (freshGrid 3 3) 0 5
      (by decide) (by decide) (by decide) (by decide)⟩

/-- C13: when start and finish are the same cell `c`, `dijkstra` returns the
one-element visited order `[c]`, and `getNodesInShortestPathOrder(c)`
afterwards returns the one-element path `[c]`. -/
theorem same_start_finish (h : Heap) (grid : Grid) (c : Ref)
    (hwf : WellFormed h grid) (hreset : IsReset h grid) (hc : InGrid grid c) :
    (dijkstra h grid c c).2 = Outcome.returned [c] ∧
      ∀ fuel, 1 ≤ fuel →
        getNodesInShortestPathOrder fuel (dijkstra h grid c c).1 c = some [c] := by
  obtain ⟨U, V, E, hrun, inv, hexit⟩ := dijkstra_final hwf hreset hc hc
  have hhead := visited_head_start inv hc hexit
  have hV : V = [c] := by
    rcases hexit with ⟨e, _⟩ | e
    · have : c ∈ V := List.mem_of_mem_head? hhead
      rw [e] at this
      exact absurd this inv.finish
    · cases hE : E with
      | nil => rw [e, hE]; rfl
      | cons a t =>
        rw [e, hE] at hhead
        have hac : a = c := by simpa using hhead
        exact absurd (by rw [hE, hac]; simp) inv.finish
  refine ⟨by rw [hrun, hV], ?_⟩
  intro fuel hfuel
  obtain ⟨n, rfl⟩ : ∃ n, fuel = n + 1 := ⟨fuel - 1, by omega⟩
  unfold getNodesInShortestPathOrder
  rw [pathLoop, inv.start.2]
  cases n <;> rfl

theorem same_start_finish_witness :
    WellFormed (freshHeap 3 [4]) (freshGrid 3 3) ∧ IsReset (freshHeap 3 [4]) (freshGrid 3 3) ∧
    InGrid (freshGrid 3 3) 4 ∧
    (dijkstra (freshHeap 3 [4]) (freshGrid 3 3) 4 4).2 = Outcome.returned [4] ∧
      ∀ fuel, 1 ≤ fuel →
        getNodesInShortestPathOrder fuel (dijkstra (freshHeap 3 [4]) (freshGrid 3 3) 4 4).1 4
          = some [4] :=
  ⟨by decide, by decide, by decide,
    same_start_finish (freshHeap 3 [4]) (freshGrid 3 3) 4 (by decide) (by decide) (by decide)⟩

/-- C17: the visited order returned by `dijkstra` begins with the start cell,
whose distance is 0, and every cell in it has a finite distance that is at
least the distance of the cell before it and at most one larger. -/
theorem visited_order_distances_monotone (h : Heap) (grid : Grid) (s f : Ref)
    (hwf : WellFormed h grid) (hreset : IsReset h grid) (hs : InGrid grid s)
    (hf : InGrid grid f) :
    ∃ visited, (dijkstra h grid s f).2 = Outcome.returned visited ∧
      visited.head? = some s ∧ ((dijkstra h grid s f).1 s).distance = some 0 ∧
      (∀ v ∈ visited, ∃ d, ((dijkstra h grid s f).1 v).distance = some d) ∧
      visited.Chain' (fun a b => ∃ da db,
        ((dijkstra h grid s f).1 a).distance = some da ∧
        ((dijkstra h grid s f).1 b).distance = some db ∧ da ≤ db ∧ db ≤ da + 1) := by
  obtain ⟨U, V, E, hrun, inv, hexit⟩ := dijkstra_final hwf hreset hs hf
  exact ⟨V, hrun, visited_head_start inv hs hexit, inv.start.1, inv_visited_dist inv,
    inv.mono⟩

theorem visited_order_distances_monotone_witness :
    WellFormed (freshHeap 3 [4]) (freshGrid 3 3) ∧ IsReset (freshHeap 3 [4]) (freshGrid 3 3) ∧
    InGrid (freshGrid 3 3) 0 ∧ InGrid (freshGrid 3 3) 8 ∧
    ∃ visited, (dijkstra (freshHeap 3 [4]) (freshGrid 3 3) 0 8).2 = Outcome.returned visited ∧
      visited.head? = some 0 ∧
      ((dijkstra (freshHeap 3 [4]) (freshGrid 3 3) 0 8).1 0).distance = some 0 ∧
      (∀ v ∈ visited, ∃ d,
        ((dijkstra (freshHeap 3 [4]) (freshGrid 3 3) 0 8).1 v).distance = some d) ∧
      visited.Chain' (fun a b => ∃ da db,
        ((dijkstra (freshHeap 3 [4]) (freshGrid 3 3) 0 8).1 a).distance = some da ∧
        ((dijkstra (freshHeap 3 [4]) (freshGrid 3 3) 0 8).1 b).distance = some db ∧
        da ≤ db ∧ db ≤ da + 1) :=
  ⟨by decide, by decide, by decide, by decide,
    visited_order_distances_monotone (freshHeap 3 [4]) (freshGrid 3 3) 0 8
      (by decide) (by decide) (by decide) (by decide)⟩

/-- A route from a cell above row `w` to a cell below it, or the other way
round, has a cell in row `w`. -/
theorem route_crosses_row {h : Heap} {grid : Grid} (w : Nat) :
    ∀ (p : List Ref) (a x : Ref), IsRoute h grid a x p →
      (((h a).row < w ∧ w < (h x).row) ∨ ((h x).row < w ∧ w < (h a).row)) →
      ∃ c ∈ p, (h c).row = w := by
  intro p
  induction p with
  | nil =>
    intro a x hr
    have := hr.1
    simp at this
  | cons c t ih =>
    intro a x hr hpos
    cases t with
    | nil =>
      obtain ⟨_, hxa⟩ := isRoute_singleton hr
      rw [hxa] at hpos
      omega
    | cons b t =>
      obtain ⟨_, hadj, _, _, hr'⟩ := isRoute_cons_cons hr
      by_cases hbw : (h b).row = w
      · exact ⟨b, by simp, hbw⟩
      · unfold Adjacent at hadj
        obtain ⟨c', hc', e⟩ := ih b x hr' (by omega)
        exact ⟨c', List.mem_cons_of_mem _ hc', e⟩

/-- C14: when every cell of row `w` except the gap cell is blocked, the start
lies above that row and the finish below it (or the other way round) and the
finish is reachable, the path returned by `getNodesInShortestPathOrder(finish)`
after `dijkstra` contains the gap cell and contains no blocked cell. -/
theorem shortest_path_through_gap (h : Heap) (grid : Grid) (s f : Ref)
    (hwf : WellFormed h grid) (hreset : IsReset h grid) (hs : InGrid grid s)
    (hf : InGrid grid f) (hsw : (h s).isWall = false) (_hfw : (h f).isWall = false)
    (w : Nat) (gap : Ref) (_hgap : InGrid grid gap) (_hgrow : (h gap).row = w)
    (hrow : ∀ r ∈ grid, ∀ c ∈ r, (h c).row = w → c ≠ gap → (h c).isWall = true)
    (hpos : ((h s).row < w ∧ w < (h f).row) ∨ ((h f).row < w ∧ w < (h s).row))
    (hreach : Reachable h grid s f) :
    ∃ N, ∀ fuel, N ≤ fuel → ∃ p,
      getNodesInShortestPathOrder fuel (dijkstra h grid s f).1 f = some p ∧
      gap ∈ p ∧ ∀ c ∈ p, (h c).isWall = false := by
  obtain ⟨U, V, E, _, inv, hexit⟩ := dijkstra_final hwf hreset hs hf
  have hfV : f ∈ V := (finish_visited_iff inv hs hsw hexit).mpr hreach
  obtain ⟨d, hd⟩ := inv_visited_dist inv f hfV
  refine ⟨d + 1, ?_⟩
  intro fuel hfuel
  obtain ⟨p, h1, _, h3⟩ := finish_path inv hs hsw hf hd fuel hfuel
  refine ⟨p, h1, ?_, fun c hc => (h3.2.2.1 c hc).2⟩
  obtain ⟨c, hc, hcw⟩ := route_crosses_row w p s f h3 hpos
  obtain ⟨⟨r, hr1, hr2⟩, hcnw⟩ := h3.2.2.1 c hc
  have hcg : c = gap := by
    by_contra hne
    rw [hrow r hr1 c hr2 hcw hne] at hcnw
    exact absurd hcnw (by simp)
  rw [← hcg]
  exact hc

theorem shortest_path_through_gap_witness :
    WellFormed (freshHeap 3 [3, 4]) (freshGrid 3 3) ∧
    IsReset (freshHeap 3 [3, 4]) (freshGrid 3 3) ∧
    InGrid (freshGrid 3 3) 0 ∧ InGrid (freshGrid 3 3) 6 ∧
    (freshHeap 3 [3, 4] 0).isWall = false ∧ (freshHeap 3 [3, 4] 6).isWall = false ∧
    InGrid (freshGrid 3 3) 5 ∧ (freshHeap 3 [3, 4] 5).row = 1 ∧
    (∀ r ∈ freshGrid 3 3, ∀ c ∈ r, (freshHeap 3 [3, 4] c).row = 1 → c ≠ 5 →
      (freshHeap 3 [3, 4] c).isWall = true) ∧
    (((freshHeap 3 [3, 4] 0).row < 1 ∧ 1 < (freshHeap 3 [3, 4] 6).row) ∨
      ((freshHeap 3 [3, 4] 6).row < 1 ∧ 1 < (freshHeap 3 [3, 4] 0).row)) ∧
    Reachable (freshHeap 3 [3, 4]) (freshGrid 3 3) 0 6 ∧
    ∃ N, ∀ fuel, N ≤ fuel → ∃ p,
      getNodesInShortestPathOrder fuel
        (dijkstra (freshHeap 3 [3, 4]) (freshGrid 3 3) 0 6).1 6 = some p ∧
      5 ∈ p ∧ ∀ c ∈ p, (freshHeap 3 [3, 4] c).isWall = false :=
  have hreach : Reachable (freshHeap 3 [3, 4]) (freshGrid 3 3) 0 6 :=
    ⟨[0, 1, 2, 5, 8, 7, 6], by decide, by decide, by decide, by
      simp only [List.chain'_cons, List.chain'_singleton, and_true]
      decide⟩
  ⟨by decide, by decide, by decide, by decide, by decide, by decide, by decide, by decide,
    by decide, by decide, hreach,
    shortest_path_through_gap (freshHeap 3 [3, 4]) (freshGrid 3 3) 0 6
      (by decide) (by decide) (by decide) (by decide) (by decide) (by decide) 1 5
      (by decide) (by decide) (by decide) (by decide) hreach⟩

/-- The loop of `getNodesInShortestPathOrder` on a finite predecessor chain. -/
theorem pathLoop_chain (h : Heap) :
    ∀ (n : Nat) (c : Ref) (acc : List Ref) (fuel : Nat), walkBack h n (some c) = none →
      n ≤ fuel →
      ∃ p, pathLoop h fuel (some c) acc = some (p ++ acc) ∧ p.getLast? = some c ∧
        p.Chain' (fun a b => (h b).previousNode = some a) ∧
        ∀ a, p.head? = some a → (h a).previousNode = none := by
  intro n
  induction n with
  | zero =>
    intro c acc fuel hw _
    simp [walkBack] at hw
  | succ n ih =>
    intro c acc fuel hw hfuel
    obtain ⟨m, rfl⟩ : ∃ m, fuel = m + 1 := ⟨fuel - 1, by omega⟩
    rw [walkBack] at hw
    rw [pathLoop]
    rcases hp : (h c).previousNode with _ | c'
    · refine ⟨[c], ?_, rfl, List.chain'_singleton c, ?_⟩
      · cases m <;> rfl
      · intro a ha
        have : a = c := by simpa using ha.symm
        rw [this]; exact hp
    · rw [hp] at hw
      obtain ⟨p, h1, h2, h3, h4⟩ := ih c' (c :: acc) m hw (by omega)
      refine ⟨p ++ [c], ?_, List.getLast?_concat p, ?_, ?_⟩
      · rw [h1]; simp
      · rw [List.chain'_append]
        refine ⟨h3, List.chain'_singleton c, ?_⟩
        intro x hx y hy
        rw [h2] at hx
        have e1 : x = c' := (Option.some.inj hx).symm
        have e2 : y = c := by simpa using hy.symm
        rw [e1, e2]; exact hp
      · intro a ha
        apply h4 a
        cases p with
        | nil => simp at h2
        | cons b t => simpa using ha

/-- C15: for a cell `f` whose predecessor chain is finite (following
`previousNode` from `f` reaches `null` after `n` steps),
`getNodesInShortestPathOrder(f)` returns that chain in reverse walking order:
the last element is `f`, the predecessor of each element other than the first
is the element before it, and the first element has no predecessor. -/
theorem path_is_reversed_predecessor_chain (h : Heap) (f : Ref) (n : Nat)
    (hfin : walkBack h n (some f) = none) :
    ∀ fuel, n ≤ fuel → ∃ p, getNodesInShortestPathOrder fuel h f = some p ∧
      p.getLast? = some f ∧
      p.Chain' (fun a b => (h b).previousNode = some a) ∧
      ∀ a, p.head? = some a → (h a).previousNode = none := by
  intro fuel hfuel
  obtain ⟨p, h1, h2, h3, h4⟩ := pathLoop_chain h n f [] fuel hfin hfuel
  refine ⟨p, ?_, h2, h3, h4⟩
  unfold getNodesInShortestPathOrder
  rw [h1, List.append_nil]

theorem path_is_reversed_predecessor_chain_witness :
    walkBack (dijkstra (freshHeap 2 []) (freshGrid 2 2) 0 3).1 3 (some 3) = none ∧
    ∀ fuel, 3 ≤ fuel → ∃ p,
      getNodesInShortestPathOrder fuel (dijkstra (freshHeap 2 []) (freshGrid 2 2) 0 3).1 3
        = some p ∧
      p.getLast? = some 3 ∧
      p.Chain' (fun a b =>
        ((dijkstra (freshHeap 2 []) (freshGrid 2 2) 0 3).1 b).previousNode = some a) ∧
      ∀ a, p.head? = some a →
        ((dijkstra (freshHeap 2 []) (freshGrid 2 2) 0 3).1 a).previousNode = none :=
  ⟨by decide,
    path_is_reversed_predecessor_chain (dijkstra (freshHeap 2 []) (freshGrid 2 2) 0 3).1 3 3
      (by decide)⟩

/-- A run of the loop that leaves through a `return` statement or a `TypeError`
within its iteration budget does the same under any larger budget. -/
theorem dijkstraLoop_budget (grid : Grid) (f : Ref) :
    ∀ (n : Nat) (h : Heap) (U V : List Ref),
      (dijkstraLoop grid f n h U V).2 ≠ Outcome.undefined →
      ∀ m, n ≤ m → dijkstraLoop grid f m h U V = dijkstraLoop grid f n h U V := by
  intro n
  induction n with
  | zero =>
    intro h U V hne
    simp [dijkstraLoop] at hne
  | succ n ih =>
    intro h U V hne m hm
    obtain ⟨k, rfl⟩ : ∃ k, m = k + 1 := ⟨m - 1, by omega⟩
    rcases hsort : sortNodesByDistance h U with _ | ⟨c, rest⟩
    · simp only [dijkstraLoop, hsort]
    · by_cases hd : (h c).distance = none
      · simp only [dijkstraLoop, hsort, hd, if_true]
      · by_cases hcf : c = f
        · simp only [dijkstraLoop, hsort, hd, if_false, hcf, if_true]
        · rcases hupd : updateUnvisitedNeighbors (setIsVisited h c true) c grid with _ | h2
          · simp only [dijkstraLoop, hsort, hd, if_false, hcf, hupd]
          · simp only [dijkstraLoop, hsort, hd, if_false, hcf, hupd] at hne ⊢
            exact ih h2 rest (V ++ [c]) hne k (by omega)

/-- C16: on a non-empty well-formed reset grid with start and finish in the
grid, `dijkstra` leaves through one of its two `return` statements within one
loop iteration per grid cell: with an iteration budget of the number of cells
the loop returns a sequence of at most that many cells, never falls out of the
`while` loop, and a larger budget gives the same result. -/
theorem dijkstra_returns_within_cell_count (h : Heap) (grid : Grid) (s f : Ref)
    (_hne : grid ≠ []) (hwf : WellFormed h grid) (hreset : IsReset h grid)
    (hs : InGrid grid s) (hf : InGrid grid f) :
    ∃ visited, (dijkstra h grid s f).2 = Outcome.returned visited ∧
      visited.length ≤ (getAllNodes grid).length ∧
      ∀ budget, (getAllNodes grid).length ≤ budget →
        dijkstraLoop grid f budget (setDistance h s (some 0)) (getAllNodes grid) []
          = dijkstra h grid s f := by
  obtain ⟨U, V, E, hrun, inv, _⟩ := dijkstra_final hwf hreset hs hf
  refine ⟨V, hrun, ?_, ?_⟩
  · have hsub : V.Subperm (getAllNodes grid) :=
      List.subperm_of_subset (inv_visited_nodup hwf inv)
        (fun v hv => mem_getAllNodes.mpr (inv_visited_inGrid inv v hv))
    exact hsub.length_le
  · intro budget hb
    have hne : (dijkstra h grid s f).2 ≠ Outcome.undefined := by
      rw [hrun]; simp
    exact dijkstraLoop_budget grid f _ _ _ _ hne budget hb

theorem dijkstra_returns_within_cell_count_witness :
    freshGrid 3 3 ≠ [] ∧
    WellFormed (freshHeap 3 [4]) (freshGrid 3 3) ∧ IsReset (freshHeap 3 [4]) (freshGrid 3 3) ∧
    InGrid (freshGrid 3 3) 0 ∧ InGrid (freshGrid 3 3) 8 ∧
    ∃ visited, (dijkstra (freshHeap 3 [4]) (freshGrid 3 3) 0 8).2 = Outcome.returned visited ∧
      visited.length ≤ (getAllNodes (freshGrid 3 3)).length ∧
      ∀ budget, (getAllNodes (freshGrid 3 3)).length ≤ budget →
        dijkstraLoop (freshGrid 3 3) 8 budget (setDistance (freshHeap 3 [4]) 0 (some 0))
          (getAllNodes (freshGrid 3 3)) []
          = dijkstra (freshHeap 3 [4]) (freshGrid 3 3) 0 8 :=
  ⟨by decide, by decide, by decide, by decide, by decide,
    dijkstra_returns_within_cell_count (freshHeap 3 [4]) (freshGrid 3 3) 0 8
      (by decide) (by decide) (by decide) (by decide) (by decide)⟩

/-- Following `previousNode` from a cell with finite distance `d` ends after
`d + 1` iterations with `d + 1` cells, whether or not the start is blocked. -/
theorem pathLoop_length {h₀ : Heap} {grid : Grid} {s f : Ref} {h : Heap}
    {U V E : List Ref} (inv : SearchInv h₀ grid s f h U V E) :
    ∀ (d : Nat) (r : Ref) (acc : List Ref) (fuel : Nat), InGrid grid r →
      (h r).distance = some d → d + 1 ≤ fuel →
      ∃ p, pathLoop h fuel (some r) acc = some (p ++ acc) ∧ p.length = d + 1 := by
  have hstart : ∀ (acc : List Ref) (fuel : Nat), 1 ≤ fuel →
      pathLoop h fuel (some s) acc = some ([s] ++ acc) := by
    intro acc fuel hfuel
    obtain ⟨n, rfl⟩ : ∃ n, fuel = n + 1 := ⟨fuel - 1, by omega⟩
    rw [pathLoop, inv.start.2]
    cases n <;> rfl
  intro d
  induction d with
  | zero =>
    intro r acc fuel hr hd hfuel
    by_cases hrs : r = s
    · subst hrs
      exact ⟨[r], hstart acc fuel hfuel, rfl⟩
    · have hne : (h r).distance ≠ none := by rw [hd]; simp
      obtain ⟨p0, hp0⟩ := Option.ne_none_iff_exists'.mp (inv.reached r hr hrs hne)
      obtain ⟨_, _, _, d0, _, e2⟩ := inv.pred r hr p0 hp0
      rw [hd] at e2
      have := Option.some.inj e2
      omega
  | succ d ih =>
    intro r acc fuel hr hd hfuel
    have hrs : r ≠ s := by
      intro e
      rw [e, inv.start.1] at hd
      have := Option.some.inj hd
      omega
    have hne : (h r).distance ≠ none := by rw [hd]; simp
    obtain ⟨p0, hp0⟩ := Option.ne_none_iff_exists'.mp (inv.reached r hr hrs hne)
    obtain ⟨hpE, _, _, d0, e1, e2⟩ := inv.pred r hr p0 hp0
    rw [hd] at e2
    have hd0 : d0 = d := by
      have := Option.some.inj e2
      omega
    subst hd0
    have hp0in : InGrid grid p0 := inv_visited_inGrid inv p0 (inv_expanded_visited inv p0 hpE)
    obtain ⟨n, rfl⟩ : ∃ n, fuel = n + 1 := ⟨fuel - 1, by omega⟩
    obtain ⟨q, hq1, hq2⟩ := ih p0 (r :: acc) n hp0in e1 (by omega)
    refine ⟨q ++ [r], ?_, by simp [hq2]⟩
    rw [pathLoop, hp0, hq1]
    simp

/-- C19: after `dijkstra` the predecessor of every cell of the grid that has
one is in the visited order, is orthogonally adjacent to the cell and has
distance exactly one less; the start cell has no predecessor.  Hence
`getNodesInShortestPathOrder` terminates on every cell of the grid: on a cell
of finite distance `d` it returns `d + 1` cells, on a cell of distance
`Infinity` the cell alone. -/
theorem predecessor_links_sound (h : Heap) (grid : Grid) (s f : Ref)
    (hwf : WellFormed h grid) (hreset : IsReset h grid) (hs : InGrid grid s)
    (hf : InGrid grid f) :
    ∃ visited, (dijkstra h grid s f).2 = Outcome.returned visited ∧
      (∀ r, InGrid grid r → ∀ p, ((dijkstra h grid s f).1 r).previousNode = some p →
        p ∈ visited ∧ Adjacent h p r ∧
        ∃ d, ((dijkstra h grid s f).1 p).distance = some d ∧
          ((dijkstra h grid s f).1 r).distance = some (d + 1)) ∧
      ((dijkstra h grid s f).1 s).previousNode = none ∧
      ∀ r, InGrid grid r → ∃ N, ∀ fuel, N ≤ fuel → ∃ path,
        getNodesInShortestPathOrder fuel (dijkstra h grid s f).1 r = some path ∧
        (∀ d, ((dijkstra h grid s f).1 r).distance = some d → path.length ≤ d + 1) ∧
        (((dijkstra h grid s f).1 r).distance = none → path = [r]) := by
  obtain ⟨U, V, E, hrun, inv, _⟩ := dijkstra_final hwf hreset hs hf
  refine ⟨V, hrun, ?_, inv.start.2, ?_⟩
  · intro r hr p hp
    obtain ⟨a, b, _, d⟩ := inv.pred r hr p hp
    exact ⟨inv_expanded_visited inv p a, b, d⟩
  · intro r hr
    rcases hd : ((dijkstra h grid s f).1 r).distance with _ | d
    · refine ⟨1, ?_⟩
      intro fuel hfuel
      refine ⟨[r], path_of_unreached inv hr hd fuel hfuel, ?_, fun _ => rfl⟩
      intro d hd'
      exact absurd hd' (by simp)
    · refine ⟨d + 1, ?_⟩
      intro fuel hfuel
      obtain ⟨p, h1, h2⟩ := pathLoop_length inv d r [] fuel hr hd hfuel
      refine ⟨p, ?_, ?_, ?_⟩
      · unfold getNodesInShortestPathOrder
        rw [h1, List.append_nil]
      · intro d' hd'
        have := Option.some.inj hd'
        omega
      · intro hn
        exact absurd hn (by simp)

theorem predecessor_links_sound_witness :
    WellFormed (freshHeap 3 [4]) (freshGrid 3 3) ∧ IsReset (freshHeap 3 [4]) (freshGrid 3 3) ∧
    InGrid (freshGrid 3 3) 0 ∧ InGrid (freshGrid 3 3) 8 ∧
    ∃ visited, (dijkstra (freshHeap 3 [4]) (freshGrid 3 3) 0 8).2 = Outcome.returned visited ∧
      (∀ r, InGrid (freshGrid 3 3) r → ∀ p,
        ((dijkstra (freshHeap 3 [4]) (freshGrid 3 3) 0 8).1 r).previousNode = some p →
        p ∈ visited ∧ Adjacent (freshHeap 3 [4]) p r ∧
        ∃ d, ((dijkstra (freshHeap 3 [4]) (freshGrid 3 3) 0 8).1 p).distance = some d ∧
          ((dijkstra (freshHeap 3 [4]) (freshGrid 3 3) 0 8).1 r).distance = some (d + 1)) ∧
      ((dijkstra (freshHeap 3 [4]) (freshGrid 3 3) 0 8).1 0).previousNode = none ∧
      ∀ r, InGrid (freshGrid 3 3) r → ∃ N, ∀ fuel, N ≤ fuel → ∃ path,
        getNodesInShortestPathOrder fuel
          (dijkstra (freshHeap 3 [4]) (freshGrid 3 3) 0 8).1 r = some path ∧
        (∀ d, ((dijkstra (freshHeap 3 [4]) (freshGrid 3 3) 0 8).1 r).distance = some d →
          path.length ≤ d + 1) ∧
        (((dijkstra (freshHeap 3 [4]) (freshGrid 3 3) 0 8).1 r).distance = none →
          path = [r]) :=
  ⟨by decide, by decide, by decide, by decide,
    predecessor_links_sound (freshHeap 3 [4]) (freshGrid 3 3) 0 8
      (by decide) (by decide) (by decide) (by decide)⟩

theorem foldl_log_heap (node : Ref) :
    ∀ (L : List Ref) (st : Heap × List (Ref × Option Nat)),
      (L.foldl
        (fun (st : Heap × List (Ref × Option Nat)) neighbor =>
          (setPreviousNode (setDistance st.1 neighbor ((st.1 node).distance.map (· + 1)))
              neighbor (some node),
            st.2 ++ [(neighbor, (st.1 node).distance.map (· + 1))])) st).1
      = L.foldl
        (fun h neighbor =>
          setPreviousNode (setDistance h neighbor ((h node).distance.map (· + 1)))
            neighbor (some node)) st.1 := by
  intro L
  induction L with
  | nil => intro st; rfl
  | cons a t ih =>
    intro st
    simp only [List.foldl_cons]
    rw [ih]

theorem foldl_log_writes (node : Ref) :
    ∀ (L : List Ref) (st : Heap × List (Ref × Option Nat)), node ∉ L →
      (L.foldl
        (fun (st : Heap × List (Ref × Option Nat)) neighbor =>
          (setPreviousNode (setDistance st.1 neighbor ((st.1 node).distance.map (· + 1)))
              neighbor (some node),
            st.2 ++ [(neighbor, (st.1 node).distance.map (· + 1))])) st).2
      = st.2 ++ L.map (fun neighbor => (neighbor, (st.1 node).distance.map (· + 1))) := by
  intro L
  induction L with
  | nil => intro st _; simp
  | cons a t ih =>
    intro st hnot
    have hna : node ≠ a := fun e => hnot (by simp [e])
    have hnt : node ∉ t := fun e => hnot (by simp [e])
    simp only [List.foldl_cons]
    rw [ih _ hnt]
    simp [setDistance_distance, hna]

/-- The recording version of `updateUnvisitedNeighbors` changes the heap as the
plain one does. -/
theorem updateUnvisitedNeighborsLog_heap (h : Heap) (node : Ref) (grid : Grid) :
    (updateUnvisitedNeighborsLog h node grid).map Prod.fst
      = updateUnvisitedNeighbors h node grid := by
  unfold updateUnvisitedNeighborsLog updateUnvisitedNeighbors
  rcases getUnvisitedNeighbors h node grid with _ | L
  · rfl
  · simp only [Option.map_some']
    rw [foldl_log_heap]

/-- The recording loop runs exactly as `dijkstraLoop` does. -/
theorem dijkstraLoopLog_run (grid : Grid) (f : Ref) :
    ∀ (n : Nat) (h : Heap) (U V : List Ref) (log : List (Ref × Option Nat)),
      (dijkstraLoopLog grid f n h U V log).1 = dijkstraLoop grid f n h U V := by
  intro n
  induction n with
  | zero => intro h U V log; rfl
  | succ n ih =>
    intro h U V log
    rcases hsort : sortNodesByDistance h U with _ | ⟨c, rest⟩
    · simp only [dijkstraLoopLog, dijkstraLoop, hsort]
    · by_cases hd : (h c).distance = none
      · simp only [dijkstraLoopLog, dijkstraLoop, hsort, hd, if_true]
      · by_cases hcf : c = f
        · subst hcf
          simp only [dijkstraLoopLog, dijkstraLoop, hsort, hd, if_false, if_true]
        · have hheap := updateUnvisitedNeighborsLog_heap (setIsVisited h c true) c grid
          rcases hlog : updateUnvisitedNeighborsLog (setIsVisited h c true) c grid
            with _ | ⟨h2, writes⟩
          · rw [hlog] at hheap
            simp only [dijkstraLoopLog, dijkstraLoop, hsort, hd, if_false, hcf, hlog,
              ← hheap, Option.map_none']
          · rw [hlog] at hheap
            simp only [dijkstraLoopLog, dijkstraLoop, hsort, hd, if_false, hcf, hlog,
              ← hheap, Option.map_some']
            exact ih h2 rest (V ++ [c]) (log ++ writes)

/-- Updating the neighbours of the node just visited writes one and the same
finite value to each of them, and that value is the distance they end with. -/
theorem expand_log {h₀ : Heap} {grid : Grid} {s f : Ref} {h1 : Heap}
    {U E : List Ref} {c : Ref} (hwf : WellFormed h₀ grid)
    (inv : SearchInv h₀ grid s f h1 U (E ++ [c]) E) (hcf : c ≠ f) (hcin : InGrid grid c)
    (hcE : c ∉ E) :
    ∃ h2 writes, updateUnvisitedNeighborsLog h1 c grid = some (h2, writes) ∧
      SearchInv h₀ grid s f h2 U (E ++ [c]) (E ++ [c]) ∧
      (∀ r d, (h1 r).distance = some d → (h2 r).distance = some d) ∧
      ∃ v, ∀ w ∈ writes, w.2 = some v ∧ (h2 w.1).distance = some v := by
  obtain ⟨h2, hupd, inv2, hkeep⟩ := searchInv_expand hwf inv hcf hcin hcE
  have hwf1 : WellFormed h1 grid := wf_of_static hwf inv.static
  obtain ⟨L, hL, hLmem⟩ := getUnvisitedNeighbors_spec hwf1 hcin
  have hcL : c ∉ L := by
    intro hm
    have hv := ((hLmem c).mp hm).2.2.1
    rw [(inv.visited c hcin).mpr (by simp)] at hv
    exact absurd hv (by simp)
  obtain ⟨k, hk1, _, _⟩ := inv.level
  have hck : (h1 c).distance = some k := hk1 c (List.getLast?_concat E)
  have hh2 : h2 = L.foldl (fun h neighbor =>
      setPreviousNode (setDistance h neighbor ((h c).distance.map (· + 1)))
        neighbor (some c)) h1 := by
    unfold updateUnvisitedNeighbors at hupd
    rw [hL] at hupd
    exact (Option.some.inj hupd).symm
  refine ⟨h2, L.map (fun neighbor => (neighbor, some (k + 1))), ?_, inv2, hkeep, k + 1, ?_⟩
  · unfold updateUnvisitedNeighborsLog
    rw [hL]
    simp only [Option.map_some']
    congr 1
    apply Prod.ext
    · rw [foldl_log_heap, hh2]
    · rw [foldl_log_writes c L (h1, []) hcL]
      simp [hck]
  · intro w hw
    obtain ⟨x, hx, rfl⟩ := List.mem_map.mp hw
    refine ⟨rfl, ?_⟩
    obtain ⟨_, _, _, _, a5, _⟩ := foldl_assign_spec c L h1 hcL x
    rw [hh2, a5, if_pos hx, hck]
    rfl

theorem logAgrees_append {h1 h2 : Heap} {log writes : List (Ref × Option Nat)} {v : Nat}
    (hlog : LogAgrees h1 log)
    (hkeep : ∀ r d, (h1 r).distance = some d → (h2 r).distance = some d)
    (hw : ∀ w ∈ writes, w.2 = some v ∧ (h2 w.1).distance = some v) :
    LogAgrees h2 (log ++ writes) := by
  obtain ⟨hval, hpair⟩ := hlog
  constructor
  · intro w hmem
    rcases List.mem_append.mp hmem with e | e
    · obtain ⟨d, e1, e2⟩ := hval w e
      exact ⟨d, e1, hkeep _ d e2⟩
    · exact ⟨v, (hw w e).1, (hw w e).2⟩
  · rw [List.pairwise_append]
    refine ⟨hpair, ?_, ?_⟩
    · apply List.pairwise_of_forall_mem_list
      intro a ha b hb _
      rw [(hw a ha).1, (hw b hb).1]
    · intro a ha b hb hab
      obtain ⟨d, e1, e2⟩ := hval a ha
      have h3 := hkeep _ d e2
      rw [hab, (hw b hb).2] at h3
      rw [e1, (hw b hb).1, h3]

/-- Throughout the loop the record of distance assignments agrees with the
heap. -/
theorem dijkstraLoopLog_agrees {h₀ : Heap} {grid : Grid} {s f : Ref}
    (hwf : WellFormed h₀ grid) :
    ∀ (n : Nat) (h : Heap) (U V : List Ref) (log : List (Ref × Option Nat)),
      SearchInv h₀ grid s f h U V V → LogAgrees h log →
      LogAgrees (dijkstraLoopLog grid f n h U V log).1.1
        (dijkstraLoopLog grid f n h U V log).2 := by
  intro n
  induction n with
  | zero => intro h U V log _ hlog; exact hlog
  | succ n ih =>
    intro h U V log inv hlog
    rcases hsort : sortNodesByDistance h U with _ | ⟨c, rest⟩
    · simp only [dijkstraLoopLog, hsort]
      exact hlog
    · by_cases hd : (h c).distance = none
      · simp only [dijkstraLoopLog, hsort, hd, if_true]
        exact hlog
      · obtain ⟨m, hm⟩ := Option.ne_none_iff_exists'.mp hd
        obtain ⟨inv1, hcV, hcin⟩ := searchInv_visit hwf inv hsort hm
        have hlog1 : LogAgrees (setIsVisited h c true) log := by
          refine ⟨?_, hlog.2⟩
          intro w hw
          obtain ⟨d, e1, e2⟩ := hlog.1 w hw
          exact ⟨d, e1, by simpa using e2⟩
        by_cases hcf : c = f
        · subst hcf
          simp only [dijkstraLoopLog, hsort, hd, if_false, if_true]
          exact hlog1
        · obtain ⟨h2, writes, hupd, inv2, hkeep, v, hw⟩ :=
            expand_log hwf inv1 hcf hcin hcV
          simp only [dijkstraLoopLog, hsort, hd, if_false, hcf, hupd]
          exact ih h2 rest (V ++ [c]) (log ++ writes) inv2
            (logAgrees_append hlog1 hkeep hw)

/-- C18: in the record of all assignments to a `distance` field made by
`dijkstra` (which runs exactly as `dijkstra` does), every value written is
finite and is the distance the cell still has when the search ends, and any
later assignment to a cell writes the value an earlier one wrote: a finite
distance never changes. -/
theorem distance_writes_never_change (h : Heap) (grid : Grid) (s f : Ref)
    (hwf : WellFormed h grid) (hreset : IsReset h grid) (hs : InGrid grid s)
    (_hf : InGrid grid f) :
    (dijkstraLog h grid s f).1 = dijkstra h grid s f ∧
    (∀ w ∈ (dijkstraLog h grid s f).2, ∃ d, w.2 = some d ∧
      ((dijkstra h grid s f).1 w.1).distance = some d) ∧
    (dijkstraLog h grid s f).2.Pairwise
      (fun earlier later => earlier.1 = later.1 → later.2 = earlier.2) := by
  have hrun : (dijkstraLog h grid s f).1 = dijkstra h grid s f := by
    unfold dijkstraLog dijkstra
    exact dijkstraLoopLog_run grid f _ _ _ _ _
  have hinit : LogAgrees (setDistance h s (some 0)) [(s, some 0)] := by
    constructor
    · intro w hw
      rw [List.mem_singleton.mp hw]
      exact ⟨0, rfl, by simp [setDistance_distance]⟩
    · exact List.pairwise_singleton _ _
  have key := dijkstraLoopLog_agrees (s := s) (f := f) hwf (getAllNodes grid).length
    (setDistance h s (some 0)) (getAllNodes grid) [] [(s, some 0)]
    (searchInv_init hreset hs) hinit
  have key' : LogAgrees (dijkstraLog h grid s f).1.1 (dijkstraLog h grid s f).2 := key
  rw [hrun] at key'
  exact ⟨hrun, key'.1, key'.2⟩

theorem distance_writes_never_change_witness :
    WellFormed (freshHeap 2 []) (freshGrid 2 2) ∧ IsReset (freshHeap 2 []) (freshGrid 2 2) ∧
    InGrid (freshGrid 2 2) 0 ∧ InGrid (freshGrid 2 2) 3 ∧
    (dijkstraLog (freshHeap 2 []) (freshGrid 2 2) 0 3).1
      = dijkstra (freshHeap 2 []) (freshGrid 2 2) 0 3 ∧
    (∀ w ∈ (dijkstraLog (freshHeap 2 []) (freshGrid 2 2) 0 3).2, ∃ d, w.2 = some d ∧
      ((dijkstra (freshHeap 2 []) (freshGrid 2 2) 0 3).1 w.1).distance = some d) ∧
    (dijkstraLog (freshHeap 2 []) (freshGrid 2 2) 0 3).2.Pairwise
      (fun earlier later => earlier.1 = later.1 → later.2 = earlier.2) :=
  ⟨by decide, by decide, by decide, by decide,
    distance_writes_never_change (freshHeap 2 []) (freshGrid 2 2) 0 3
      (by decide) (by decide) (by decide) (by decide)⟩

/-! ## The application state -/

theorem cellAt_eq_some {grid : AppGrid} {i j : Nat} {n : Node} :
    cellAt grid i j = some n ↔ ∃ (hi : i < grid.length) (hj : j < (grid[i]).length),
      (grid[i])[j] = n := by
  unfold cellAt
  constructor
  · intro hg
    rcases hrow : grid[i]? with _ | row
    · simp [hrow] at hg
    · rw [hrow] at hg
      simp only [Option.some_bind] at hg
      obtain ⟨hi, hrow'⟩ := List.getElem?_eq_some_iff.mp hrow
      obtain ⟨hj, hr⟩ := List.getElem?_eq_some_iff.mp hg
      subst hrow'
      exact ⟨hi, hj, hr⟩
  · rintro ⟨hi, hj, hr⟩
    rw [List.getElem?_eq_getElem hi]
    simp only [Option.some_bind]
    rw [List.getElem?_eq_getElem hj, hr]

theorem cellAt_map (f : Node → Node) (grid : AppGrid) (i j : Nat) :
    cellAt (grid.map (fun row => row.map f)) i j = (cellAt grid i j).map f := by
  unfold cellAt
  rw [List.getElem?_map]
  rcases grid[i]? with _ | row
  · rfl
  · simp

theorem cellAt_putCell (grid : AppGrid) (r c : Nat) (n old : Node)
    (hin : cellAt grid r c = some old) (i j : Nat) :
    cellAt (putCell grid r c n) i j = if i = r ∧ j = c then some n else cellAt grid i j := by
  obtain ⟨hr, hc, _⟩ := cellAt_eq_some.mp hin
  have hgetD : grid.getD r [] = grid[r] := List.getD_eq_getElem grid [] hr
  unfold putCell cellAt
  by_cases hir : i = r
  · subst hir
    rw [List.getElem?_set_self hr, hgetD, List.getElem?_eq_getElem hr]
    simp only [Option.some_bind, true_and]
    by_cases hjc : j = c
    · subst hjc
      rw [List.getElem?_set_self hc, if_pos rfl]
    · rw [List.getElem?_set_ne (fun e => hjc e.symm), if_neg hjc]
  · rw [List.getElem?_set_ne (fun e => hir e.symm)]
    simp [hir]

theorem isFullSize_cell {grid : AppGrid} (hfull : IsFullSize grid) {i j : Nat}
    (hi : i < GRID_SIZE) (hj : j < GRID_SIZE) : ∃ n, cellAt grid i j = some n := by
  have hi' : i < grid.length := by rw [hfull.1]; exact hi
  have hj' : j < (grid[i]).length := by
    rw [hfull.2 _ (List.getElem_mem hi')]; exact hj
  exact ⟨(grid[i])[j], cellAt_eq_some.mpr ⟨hi', hj', rfl⟩⟩

theorem isFullSize_map (f : Node → Node) {grid : AppGrid} (hfull : IsFullSize grid) :
    IsFullSize (grid.map (fun row => row.map f)) := by
  refine ⟨by rw [List.length_map]; exact hfull.1, ?_⟩
  intro row hrow
  obtain ⟨row', h1, rfl⟩ := List.mem_map.mp hrow
  rw [List.length_map]
  exact hfull.2 row' h1

theorem isFullSize_putCell {grid : AppGrid} (hfull : IsFullSize grid) (r c : Nat)
    (n : Node) : IsFullSize (putCell grid r c n) := by
  unfold putCell
  refine ⟨by rw [List.length_set]; exact hfull.1, ?_⟩
  intro row hrow
  rcases List.mem_or_eq_of_mem_set hrow with e | e
  · exact hfull.2 row e
  · rw [e, List.length_set]
    by_cases hr : r < grid.length
    · rw [List.getD_eq_getElem grid [] hr]
      exact hfull.2 _ (List.getElem_mem hr)
    · exfalso
      rw [List.set_eq_of_length_le (by omega)] at hrow
      have := hfull.2 row hrow
      rw [e, List.length_set, List.getD_eq_default grid [] (by omega)] at this
      simp [GRID_SIZE] at this

theorem isFullSize_createInitialGrid : IsFullSize createInitialGrid := by
  unfold createInitialGrid
  refine ⟨by simp, ?_⟩
  intro row hrow
  obtain ⟨i, _, rfl⟩ := List.mem_map.mp hrow
  simp

theorem cellAt_createInitialGrid (i j : Nat) (n : Node)
    (hc : cellAt createInitialGrid i j = some n) :
    i < GRID_SIZE ∧ j < GRID_SIZE ∧ n.isStart = (i == 10 && j == 5) ∧
      n.isFinish = (i == 10 && j == 15) := by
  obtain ⟨hi, hj, hn⟩ := cellAt_eq_some.mp hc
  unfold createInitialGrid at hi hj hn
  simp only [List.length_map, List.length_range, List.getElem_map, List.getElem_range] at hi hj hn
  subst hn
  exact ⟨hi, hj, rfl, rfl⟩

/-- A grid with the same marks at every position has exactly one marked cell
when the other one has. -/
theorem markedOnce_congr (mark : Node → Bool) {g g' : AppGrid}
    (hsame : ∀ i j, (cellAt g' i j).map mark = (cellAt g i j).map mark)
    (hm : MarkedOnce mark g) : MarkedOnce mark g' := by
  obtain ⟨i, j, ⟨n, hn, hmark⟩, huniq⟩ := hm
  refine ⟨i, j, ?_, ?_⟩
  · have := hsame i j
    rw [hn] at this
    rcases hc : cellAt g' i j with _ | n'
    · rw [hc] at this; simp at this
    · rw [hc] at this
      simp only [Option.map_some', Option.some.injEq] at this
      exact ⟨n', rfl, by rw [this]; exact hmark⟩
  · intro i' j' n' hn' hmark'
    have := hsame i' j'
    rw [hn'] at this
    rcases hc : cellAt g i' j' with _ | m
    · rw [hc] at this; simp at this
    · rw [hc] at this
      simp only [Option.map_some', Option.some.injEq] at this
      exact huniq i' j' m hc (by rw [← this]; exact hmark')

theorem markedOnce_createInitialGrid :
    MarkedOnce (fun n => n.isStart) createInitialGrid ∧
    MarkedOnce (fun n => n.isFinish) createInitialGrid := by
  obtain ⟨s, hs⟩ := isFullSize_cell isFullSize_createInitialGrid
    (i := 10) (j := 5) (by decide) (by decide)
  obtain ⟨f, hf⟩ := isFullSize_cell isFullSize_createInitialGrid
    (i := 10) (j := 15) (by decide) (by decide)
  constructor
  · refine ⟨10, 5, ⟨s, hs, ?_⟩, ?_⟩
    · have := (cellAt_createInitialGrid 10 5 s hs).2.2.1
      simpa using this
    · intro i j n hn hmark
      have := (cellAt_createInitialGrid i j n hn).2.2.1
      simp only [hmark] at this
      simpa using this.symm
  · refine ⟨10, 15, ⟨f, hf, ?_⟩, ?_⟩
    · have := (cellAt_createInitialGrid 10 15 f hf).2.2.2
      simpa using this
    · intro i j n hn hmark
      have := (cellAt_createInitialGrid i j n hn).2.2.2
      simp only [hmark] at this
      simpa using this.symm

theorem toggleWall_spec (grid : AppGrid) (r c : Nat) (hfull : IsFullSize grid) :
    IsFullSize (toggleWall grid r c) ∧
    (∀ i j, (cellAt (toggleWall grid r c) i j).map (fun n => n.isStart)
      = (cellAt grid i j).map (fun n => n.isStart)) ∧
    (∀ i j, (cellAt (toggleWall grid r c) i j).map (fun n => n.isFinish)
      = (cellAt grid i j).map (fun n => n.isFinish)) := by
  unfold toggleWall
  rcases hc : cellAt grid r c with _ | node
  · exact ⟨hfull, fun _ _ => rfl, fun _ _ => rfl⟩
  · refine ⟨isFullSize_putCell hfull r c _, ?_, ?_⟩
    · intro i j
      simp only [cellAt_putCell grid r c _ node hc]
      by_cases hij : i = r ∧ j = c
      · rw [if_pos hij, hij.1, hij.2, hc]
        rfl
      · rw [if_neg hij]
    · intro i j
      simp only [cellAt_putCell grid r c _ node hc]
      by_cases hij : i = r ∧ j = c
      · rw [if_pos hij, hij.1, hij.2, hc]
        rfl
      · rw [if_neg hij]

theorem setStartNode_spec (grid : AppGrid) (r c : Nat) (hfull : IsFullSize grid)
    (hr : r < GRID_SIZE) (hc : c < GRID_SIZE) :
    IsFullSize (setStartNode grid r c) ∧
    MarkedOnce (fun n => n.isStart) (setStartNode grid r c) ∧
    (∀ i j, (cellAt (setStartNode grid r c) i j).map (fun n => n.isFinish)
      = (cellAt grid i j).map (fun n => n.isFinish)) := by
  have hfull' := isFullSize_map (fun node => { node with isStart := false }) hfull
  obtain ⟨node, hnode⟩ := isFullSize_cell hfull' hr hc
  have hold := hnode
  rw [cellAt_map] at hold
  unfold setStartNode
  simp only [hnode]
  refine ⟨isFullSize_putCell hfull' r c _, ?_, ?_⟩
  · refine ⟨r, c, ⟨_, by rw [cellAt_putCell _ r c _ node hnode, if_pos ⟨rfl, rfl⟩], rfl⟩, ?_⟩
    intro i j n hn hmark
    rw [cellAt_putCell _ r c _ node hnode] at hn
    by_contra hij
    rw [if_neg hij, cellAt_map] at hn
    rcases hg : cellAt grid i j with _ | m
    · rw [hg] at hn; simp at hn
    · rw [hg] at hn
      simp only [Option.map_some', Option.some.injEq] at hn
      rw [← hn] at hmark
      simp at hmark
  · intro i j
    rw [cellAt_putCell _ r c _ node hnode]
    by_cases hij : i = r ∧ j = c
    · rw [if_pos hij, hij.1, hij.2]
      rcases hg : cellAt grid r c with _ | m
      · rw [hg] at hold; simp at hold
      · rw [hg] at hold
        simp only [Option.map_some', Option.some.injEq] at hold
        rw [← hold]
        rfl
    · rw [if_neg hij, cellAt_map]
      rcases cellAt grid i j with _ | m <;> rfl

theorem setFinishNode_spec (grid : AppGrid) (r c : Nat) (hfull : IsFullSize grid)
    (hr : r < GRID_SIZE) (hc : c < GRID_SIZE) :
    IsFullSize (setFinishNode grid r c) ∧
    MarkedOnce (fun n => n.isFinish) (setFinishNode grid r c) ∧
    (∀ i j, (cellAt (setFinishNode grid r c) i j).map (fun n => n.isStart)
      = (cellAt grid i j).map (fun n => n.isStart)) := by
  have hfull' := isFullSize_map (fun node => { node with isFinish := false }) hfull
  obtain ⟨node, hnode⟩ := isFullSize_cell hfull' hr hc
  have hold := hnode
  rw [cellAt_map] at hold
  unfold setFinishNode
  simp only [hnode]
  refine ⟨isFullSize_putCell hfull' r c _, ?_, ?_⟩
  · refine ⟨r, c, ⟨_, by rw [cellAt_putCell _ r c _ node hnode, if_pos ⟨rfl, rfl⟩], rfl⟩, ?_⟩
    intro i j n hn hmark
    rw [cellAt_putCell _ r c _ node hnode] at hn
    by_contra hij
    rw [if_neg hij, cellAt_map] at hn
    rcases hg : cellAt grid i j with _ | m
    · rw [hg] at hn; simp at hn
    · rw [hg] at hn
      simp only [Option.map_some', Option.some.injEq] at hn
      rw [← hn] at hmark
      simp at hmark
  · intro i j
    rw [cellAt_putCell _ r c _ node hnode]
    by_cases hij : i = r ∧ j = c
    · rw [if_pos hij, hij.1, hij.2]
      rcases hg : cellAt grid r c with _ | m
      · rw [hg] at hold; simp at hold
      · rw [hg] at hold
        simp only [Option.map_some', Option.some.injEq] at hold
        rw [← hold]
        rfl
    · rw [if_neg hij, cellAt_map]
      rcases cellAt grid i j with _ | m <;> rfl

theorem setDistance_marks (h : Heap) (t : Ref) (d : Option Nat) (r : Ref) :
    (setDistance h t d r).isStart = (h r).isStart ∧
    (setDistance h t d r).isFinish = (h r).isFinish := by
  unfold setDistance
  split <;> simp

theorem setPreviousNode_marks (h : Heap) (t : Ref) (p : Option Ref) (r : Ref) :
    (setPreviousNode h t p r).isStart = (h r).isStart ∧
    (setPreviousNode h t p r).isFinish = (h r).isFinish := by
  unfold setPreviousNode
  split <;> simp

theorem setIsVisited_marks (h : Heap) (t : Ref) (b : Bool) (r : Ref) :
    (setIsVisited h t b r).isStart = (h r).isStart ∧
    (setIsVisited h t b r).isFinish = (h r).isFinish := by
  unfold setIsVisited
  split <;> simp

theorem setIsPath_marks (h : Heap) (t : Ref) (b : Bool) (r : Ref) :
    (setIsPath h t b r).isStart = (h r).isStart ∧
    (setIsPath h t b r).isFinish = (h r).isFinish := by
  unfold setIsPath
  split <;> simp

theorem foldl_assign_marks (node : Ref) :
    ∀ (L : List Ref) (h : Heap) (r : Ref),
      ((L.foldl
        (fun h neighbor =>
          setPreviousNode (setDistance h neighbor ((h node).distance.map (· + 1)))
            neighbor (some node)) h) r).isStart = (h r).isStart ∧
      ((L.foldl
        (fun h neighbor =>
          setPreviousNode (setDistance h neighbor ((h node).distance.map (· + 1)))
            neighbor (some node)) h) r).isFinish = (h r).isFinish := by
  intro L
  induction L with
  | nil => intro h r; exact ⟨rfl, rfl⟩
  | cons a t ih =>
    intro h r
    simp only [List.foldl_cons]
    obtain ⟨e1, e2⟩ := ih (setPreviousNode (setDistance h a ((h node).distance.map (· + 1))) a
      (some node)) r
    rw [e1, e2, (setPreviousNode_marks _ _ _ r).1, (setPreviousNode_marks _ _ _ r).2,
      (setDistance_marks _ _ _ r).1, (setDistance_marks _ _ _ r).2]
    exact ⟨rfl, rfl⟩

/-- The search never writes `isStart` or `isFinish`. -/
theorem dijkstraLoop_marks (grid : Grid) (f : Ref) :
    ∀ (n : Nat) (h : Heap) (U V : List Ref) (r : Ref),
      ((dijkstraLoop grid f n h U V).1 r).isStart = (h r).isStart ∧
      ((dijkstraLoop grid f n h U V).1 r).isFinish = (h r).isFinish := by
  intro n
  induction n with
  | zero => intro h U V r; exact ⟨rfl, rfl⟩
  | succ n ih =>
    intro h U V r
    rcases hsort : sortNodesByDistance h U with _ | ⟨c, rest⟩
    · simp [dijkstraLoop, hsort]
    · by_cases hd : (h c).distance = none
      · simp [dijkstraLoop, hsort, hd]
      · by_cases hcf : c = f
        · subst hcf
          simp only [dijkstraLoop, hsort, hd, if_false, if_true]
          exact setIsVisited_marks h c true r
        · rcases hupd : updateUnvisitedNeighbors (setIsVisited h c true) c grid with _ | h2
          · simp only [dijkstraLoop, hsort, hd, if_false, hcf, hupd]
            exact setIsVisited_marks h c true r
          · simp only [dijkstraLoop, hsort, hd, if_false, hcf, hupd]
            obtain ⟨e1, e2⟩ := ih h2 rest (V ++ [c]) r
            rw [e1, e2]
            unfold updateUnvisitedNeighbors at hupd
            rcases hL : getUnvisitedNeighbors (setIsVisited h c true) c grid with _ | L
            · rw [hL] at hupd; simp at hupd
            · rw [hL] at hupd
              simp only [Option.map_some', Option.some.injEq] at hupd
              rw [← hupd]
              obtain ⟨g1, g2⟩ := foldl_assign_marks c L (setIsVisited h c true) r
              rw [g1, g2]
              exact setIsVisited_marks h c true r

theorem dijkstra_marks (h : Heap) (grid : Grid) (s f : Ref) (r : Ref) :
    ((dijkstra h grid s f).1 r).isStart = (h r).isStart ∧
    ((dijkstra h grid s f).1 r).isFinish = (h r).isFinish := by
  unfold dijkstra
  obtain ⟨e1, e2⟩ := dijkstraLoop_marks grid f (getAllNodes grid).length
    (setDistance h s (some 0)) (getAllNodes grid) [] r
  rw [e1, e2]
  exact setDistance_marks h s (some 0) r

theorem markAll_marks (assign : Heap → Ref → Heap) (refs : Grid)
    (hassign : ∀ h t r, (assign h t r).isStart = (h r).isStart ∧
      (assign h t r).isFinish = (h r).isFinish) :
    ∀ (l : List Ref) (h h' : Heap), markAll assign refs h l = some h' →
      ∀ r, (h' r).isStart = (h r).isStart ∧ (h' r).isFinish = (h r).isFinish := by
  intro l
  induction l with
  | nil =>
    intro h h' hrun r
    simp only [markAll, Option.some.injEq] at hrun
    rw [hrun]
    exact ⟨rfl, rfl⟩
  | cons a t ih =>
    intro h h' hrun r
    rw [markAll] at hrun
    rcases hg : gridAt refs (h a).row (h a).col with _ | target
    · rw [hg] at hrun; simp at hrun
    · rw [hg] at hrun
      obtain ⟨e1, e2⟩ := ih (assign h target) h' hrun r
      rw [e1, e2]
      exact hassign h target r

theorem toHeap_nodeRef {grid : AppGrid} {i j : Nat} {n : Node}
    (hc : cellAt grid i j = some n) : toHeap grid (nodeRef i j) = n := by
  unfold toHeap nodeRef
  rw [Nat.unpair_pair]
  simp [hc]

theorem cellAt_fromHeap_toRefs (h : Heap) (grid : AppGrid) (i j : Nat) :
    cellAt (fromHeap h (toRefs grid)) i j
      = (cellAt grid i j).map (fun _ => h (nodeRef i j)) := by
  unfold fromHeap toRefs
  by_cases hi : i < grid.length
  · have hgetD : grid.getD i [] = grid[i] := List.getD_eq_getElem grid [] hi
    by_cases hj : j < (grid[i]).length
    · have hcell : cellAt grid i j = some ((grid[i])[j]) := cellAt_eq_some.mpr ⟨hi, hj, rfl⟩
      rw [hcell]
      apply cellAt_eq_some.mpr
      refine ⟨by simpa using hi, ?_, ?_⟩
      · simp only [List.getElem_map, List.getElem_range, List.length_map, List.length_range,
          hgetD]
        exact hj
      · simp
    · have hcell : cellAt grid i j = none := by
        rcases hc : cellAt grid i j with _ | n
        · rfl
        · obtain ⟨_, hj', _⟩ := cellAt_eq_some.mp hc
          exact absurd hj' hj
      rw [hcell]
      rcases hc : cellAt (List.map (fun row => List.map h row)
          (List.map (fun i => List.map (fun j => nodeRef i j)
            (List.range (grid.getD i []).length)) (List.range grid.length))) i j with _ | n
      · rfl
      · obtain ⟨_, hj', _⟩ := cellAt_eq_some.mp hc
        simp only [List.getElem_map, List.getElem_range, List.length_map, List.length_range,
          hgetD] at hj'
        exact absurd hj' hj
  · have hcell : cellAt grid i j = none := by
      rcases hc : cellAt grid i j with _ | n
      · rfl
      · obtain ⟨hi', _, _⟩ := cellAt_eq_some.mp hc
        exact absurd hi' hi
    rw [hcell]
    rcases hc : cellAt (List.map (fun row => List.map h row)
        (List.map (fun i => List.map (fun j => nodeRef i j)
          (List.range (grid.getD i []).length)) (List.range grid.length))) i j with _ | n
    · rfl
    · obtain ⟨hi', _, _⟩ := cellAt_eq_some.mp hc
      simp only [List.length_map, List.length_range] at hi'
      exact absurd hi' hi

theorem isFullSize_fromHeap_toRefs (h : Heap) {grid : AppGrid} (hfull : IsFullSize grid) :
    IsFullSize (fromHeap h (toRefs grid)) := by
  unfold fromHeap toRefs
  refine ⟨by simp [hfull.1], ?_⟩
  intro row hrow
  simp only [List.map_map, List.mem_map, List.mem_range] at hrow
  obtain ⟨i, hi, rfl⟩ := hrow
  simp only [Function.comp_apply, List.length_map, List.length_range]
  rw [List.getD_eq_getElem grid [] hi]
  exact hfull.2 _ (List.getElem_mem hi)

/-- A state set by `visualizeDijkstra` has the shape of the old grid, and every
cell keeps its `isStart` and `isFinish`. -/
theorem visualizeDijkstra_spec (fuel : Nat) (grid newGrid : AppGrid)
    (hrun : visualizeDijkstra fuel grid = some newGrid) :
    (IsFullSize grid → IsFullSize newGrid) ∧
    (∀ i j, (cellAt newGrid i j).map (fun n => n.isStart)
      = (cellAt grid i j).map (fun n => n.isStart)) ∧
    (∀ i j, (cellAt newGrid i j).map (fun n => n.isFinish)
      = (cellAt grid i j).map (fun n => n.isFinish)) := by
  have key : ∃ h3, newGrid = fromHeap h3 (toRefs (grid.map (fun row => row.map resetNode))) ∧
      ∀ r, (h3 r).isStart = (toHeap (grid.map (fun row => row.map resetNode)) r).isStart ∧
        (h3 r).isFinish = (toHeap (grid.map (fun row => row.map resetNode)) r).isFinish := by
    unfold visualizeDijkstra at hrun
    split at hrun
    · simp only [] at hrun
      split at hrun
      · split at hrun
        · rename_i h1 visited hdij
          split at hrun
          · obtain ⟨h2, hm1, hrun⟩ := Option.bind_eq_some.mp hrun
            obtain ⟨h3, hm2, hrun⟩ := Option.map_eq_some'.mp hrun
            refine ⟨h3, hrun.symm, ?_⟩
            intro r
            obtain ⟨a1, a2⟩ := markAll_marks _ _ (fun h t r => setIsPath_marks h t true r)
              _ _ _ hm2 r
            obtain ⟨b1, b2⟩ := markAll_marks _ _ (fun h t r => setIsVisited_marks h t true r)
              _ _ _ hm1 r
            have hfst := congrArg Prod.fst hdij
            simp only [] at hfst
            rw [a1, a2, b1, b2, ← hfst]
            exact dijkstra_marks _ _ _ _ r
          · simp at hrun
        · simp at hrun
      · simp at hrun
    · simp at hrun
  obtain ⟨h3, hnew, hmarks⟩ := key
  subst hnew
  have hcell : ∀ i j, cellAt (fromHeap h3 (toRefs (grid.map (fun row => row.map resetNode)))) i j
      = (cellAt grid i j).map (fun n => h3 (nodeRef i j)) := by
    intro i j
    rw [cellAt_fromHeap_toRefs, cellAt_map]
    rcases cellAt grid i j with _ | n <;> rfl
  have hheap : ∀ i j n, cellAt grid i j = some n →
      toHeap (grid.map (fun row => row.map resetNode)) (nodeRef i j) = resetNode n := by
    intro i j n hn
    apply toHeap_nodeRef
    rw [cellAt_map, hn]
    rfl
  refine ⟨fun hfull => isFullSize_fromHeap_toRefs h3 (isFullSize_map resetNode hfull), ?_, ?_⟩
  · intro i j
    rw [hcell]
    rcases hn : cellAt grid i j with _ | n
    · rfl
    · simp only [Option.map_some', Option.some.injEq]
      rw [(hmarks (nodeRef i j)).1, hheap i j n hn]
      rfl
  · intro i j
    rw [hcell]
    rcases hn : cellAt grid i j with _ | n
    · rfl
    · simp only [Option.map_some', Option.some.injEq]
      rw [(hmarks (nodeRef i j)).2, hheap i j n hn]
      rfl

theorem appStep_invariant {grid newGrid : AppGrid} (hstep : AppStep grid newGrid)
    (hinv : IsFullSize grid ∧ MarkedOnce (fun n => n.isStart) grid ∧
      MarkedOnce (fun n => n.isFinish) grid) :
    IsFullSize newGrid ∧ MarkedOnce (fun n => n.isStart) newGrid ∧
      MarkedOnce (fun n => n.isFinish) newGrid := by
  obtain ⟨hfull, hstart, hfinish⟩ := hinv
  cases hstep with
  | toggleWall row col hrow hcol =>
    obtain ⟨a, b, c⟩ := toggleWall_spec grid row col hfull
    exact ⟨a, markedOnce_congr _ b hstart, markedOnce_congr _ c hfinish⟩
  | setStartNode row col hrow hcol =>
    obtain ⟨a, b, c⟩ := setStartNode_spec grid row col hfull hrow hcol
    exact ⟨a, b, markedOnce_congr _ c hfinish⟩
  | setFinishNode row col hrow hcol =>
    obtain ⟨a, b, c⟩ := setFinishNode_spec grid row col hfull hrow hcol
    exact ⟨a, markedOnce_congr _ c hstart, b⟩
  | visualizeDijkstra fuel _ hrun =>
    obtain ⟨a, b, c⟩ := visualizeDijkstra_spec fuel grid newGrid hrun
    exact ⟨a hfull, markedOnce_congr _ b hstart, markedOnce_congr _ c hfinish⟩
  | clearGrid =>
    exact ⟨isFullSize_createInitialGrid, markedOnce_createInitialGrid.1,
      markedOnce_createInitialGrid.2⟩

/-- C20: every grid state reachable from `createInitialGrid()` by `toggleWall`,
`setStartNode`, `setFinishNode` with coordinates inside the grid, by the
reset-and-search of `visualizeDijkstra` and by Clear Grid is a 20x20 grid with
exactly one cell marked `isStart` and exactly one cell marked `isFinish`. -/
theorem reachable_grid_one_start_one_finish (grid : AppGrid) (hreach : AppReachable grid) :
    (grid.length = 20 ∧ ∀ row ∈ grid, row.length = 20) ∧
    MarkedOnce (fun n => n.isStart) grid ∧ MarkedOnce (fun n => n.isFinish) grid := by
  have key : IsFullSize grid ∧ MarkedOnce (fun n => n.isStart) grid ∧
      MarkedOnce (fun n => n.isFinish) grid := by
    induction hreach with
    | init =>
      exact ⟨isFullSize_createInitialGrid, markedOnce_createInitialGrid.1,
        markedOnce_createInitialGrid.2⟩
    | step g g' _ hstep ih => exact appStep_invariant hstep ih
  exact key

theorem reachable_grid_one_start_one_finish_witness :
    AppReachable (setStartNode (toggleWall createInitialGrid 10 5) 10 15) ∧
    ((setStartNode (toggleWall createInitialGrid 10 5) 10 15).length = 20 ∧
      ∀ row ∈ setStartNode (toggleWall createInitialGrid 10 5) 10 15, row.length = 20) ∧
    MarkedOnce (fun n => n.isStart) (setStartNode (toggleWall createInitialGrid 10 5) 10 15) ∧
    MarkedOnce (fun n => n.isFinish) (setStartNode (toggleWall createInitialGrid 10 5) 10 15) :=
  have hreach : AppReachable (setStartNode (toggleWall createInitialGrid 10 5) 10 15) :=
    AppReachable.step _ _
      (AppReachable.step _ _ AppReachable.init
        (AppStep.toggleWall createInitialGrid 10 5 (by decide) (by decide)))
      (AppStep.setStartNode _ 10 15 (by decide) (by decide))
  ⟨hreach, reachable_grid_one_start_one_finish _ hreach⟩

/-- The search handler does set a new state: on a 2x2 grid with the start at
(0, 0) and the finish at (1, 1) it returns a grid. -/
theorem visualizeDijkstra_sets_state :
    (visualizeDijkstra 10
      [[{ row := 0, col := 0, isStart := true, isFinish := false, isWall := false,
          distance := none, isVisited := false, isPath := false, previousNode := none },
        { row := 0, col := 1, isStart := false, isFinish := false, isWall := false,
          distance := none, isVisited := false, isPath := false, previousNode := none }],
       [{ row := 1, col := 0, isStart := false, isFinish := false, isWall := false,
          distance := none, isVisited := false, isPath := false, previousNode := none },
        { row := 1, col := 1, isStart := false, isFinish := true, isWall := false,
          distance := none, isVisited := false, isPath := false,
          previousNode := none }]]).isSome = true := by
  decide!

end Pathfinder
